import Mathlib

/-!
Verification of the srdir output module (src/output/srdir.c).

The C module buffers incoming logic/analog sample blocks into fixed-capacity
buffers and writes sequentially numbered chunk files.  We embed the module
shallowly: machine-word sizes are `Nat` (all the relevant arithmetic stays far
below any overflow boundary, and the C code uses `size_t`/`uint32_t` counters
driven by list lengths), byte buffers are `List Nat`, float sample values are
abstracted to `Nat` payloads (the module only moves them around; sizeof(float)
is the constant 4), and filesystem writes are recorded in a `chunks` log.
File-I/O success/failure is an explicit oracle: the state carries a list of
`Bool` outcomes consumed by each attempted chunk write (an empty oracle means
every write succeeds, matching `headD true`).  A recorded chunk stands for a
completely written chunk file; partial files left behind by a failed write are
outside the model, matching the module's "no cleanup on error" policy.
All functions return the mutated state together with an optional error,
mirroring the C functions which mutate `out_context` in place and return an
`int` code (state changes made before an error are kept).
-/

set_option maxHeartbeats 1000000

namespace Srdir

/-- Error codes used by the module: SR_ERR, SR_ERR_ARG, SR_ERR_MALLOC. -/
inductive SrErr where
  | err
  | arg
  | malloc
deriving DecidableEq, Repr

/-- Channel kinds SR_CHANNEL_LOGIC / SR_CHANNEL_ANALOG. -/
inductive ChType where
  | logic
  | analog
deriving DecidableEq, Repr

/-- One entry of o->sdi->channels: stable index, kind, enabled flag, name. -/
structure SrChannel where
  index : Nat
  chtype : ChType
  enabled : Bool
  name : String
deriving DecidableEq, Repr

/-- The logic_buff member of out_context.  `samples` holds exactly the valid
bytes (the first fill_size*unit_size bytes of the 4 MiB C array). -/
structure LogicBuff where
  unit_size : Nat
  alloc_size : Nat
  samples : List Nat
  fill_size : Nat
  next_chunk_num : Nat
deriving DecidableEq, Repr

/-- One analog_buff entry.  `samples` holds exactly the valid float values
(the first fill_size entries of the C array). -/
structure AnalogBuff where
  alloc_size : Nat
  samples : List Nat
  fill_size : Nat
  next_chunk_num : Nat
deriving DecidableEq, Repr

/-- The all-zero analog buffer (g_malloc0 semantics / out-of-range reads). -/
def AnalogBuff.empty : AnalogBuff :=
  { alloc_size := 0, samples := [], fill_size := 0, next_chunk_num := 0 }

/-- A chunk file recorded in the archive directory: either logic-1-<n> with its
byte content, or analog-1-<ch>-<n> with its float content. -/
inductive Chunk where
  | logic (num : Nat) (bytes : List Nat)
  | analog (chNr : Nat) (num : Nat) (values : List Nat)
deriving DecidableEq, Repr

/-- sizeof(float) on every platform the module targets. -/
def sizeof_float : Nat := 4

/-- Size in bytes of a chunk file. -/
def chunkByteLen : Chunk → Nat
  | Chunk.logic _ bytes => bytes.length
  | Chunk.analog _ _ values => sizeof_float * values.length

/-- CHUNK_SIZE = 4 * 1024 * 1024. -/
def SR_CHUNK_SIZE : Nat := 4 * 1024 * 1024

/-- The out_context state, plus the chunk-file log and the I/O oracle. -/
structure OutContext where
  dir_created : Bool
  samplerate : Nat
  first_analog_index : Nat
  analog_ch_count : Nat
  analog_index_map : List Nat
  logic_buff : LogicBuff
  analog_buff : List AnalogBuff
  chunks : List Chunk
  dir_create_count : Nat
  io : List Bool
deriving DecidableEq, Repr

/-- State produced by init(): g_malloc0 zeroes every field. -/
def init_state (io : List Bool) : OutContext :=
  { dir_created := false
    samplerate := 0
    first_analog_index := 0
    analog_ch_count := 0
    analog_index_map := []
    logic_buff := { unit_size := 0, alloc_size := 0, samples := [],
                    fill_size := 0, next_chunk_num := 0 }
    analog_buff := []
    chunks := []
    dir_create_count := 0
    io := io }

/-- The channel-counting loop of dir_create (lines 127-144): total logic
channels, enabled logic channels, enabled analog channels. -/
def count_channels : List SrChannel → Nat × Nat × Nat
  | [] => (0, 0, 0)
  | ch :: rest =>
    let (lc, elc, eac) := count_channels rest
    match ch.chtype with
    | ChType.logic => (lc + 1, if ch.enabled then elc + 1 else elc, eac)
    | ChType.analog => (lc, elc, if ch.enabled then eac + 1 else eac)

/-- A per-channel metadata key written by dir_create: probe<nr>=<name> or
analog<nr>=<name>. -/
inductive MetaEntry where
  | probe (nr : Nat) (name : String)
  | analogName (nr : Nat) (name : String)
deriving DecidableEq, Repr

/-- The channel-naming loop of dir_create (lines 170-193): emits the metadata
name entries and fills analog_index_map.  `index` is the running count of
enabled analog channels seen so far; it only advances on enabled analog
channels. -/
def meta_channel_entries (first : Nat) : List SrChannel → Nat → List MetaEntry × List Nat
  | [], _ => ([], [])
  | ch :: rest, index =>
    if !ch.enabled then meta_channel_entries first rest index
    else
      match ch.chtype with
      | ChType.logic =>
        let (es, m) := meta_channel_entries first rest index
        (MetaEntry.probe (ch.index + 1) ch.name :: es, m)
      | ChType.analog =>
        let (es, m) := meta_channel_entries first rest (index + 1)
        (MetaEntry.analogName (first + index) ch.name :: es, ch.index :: m)

/-- dir_create (lines 72-257), restricted to its state effects.  Directory,
version and metadata file creation are external I/O treated as succeeding;
`drv` models the sr_config_get samplerate query.  The metadata text itself is
produced by the external key/value serializer and is not part of the state;
the channel-name entries it would receive are `(meta_channel_entries ...).1`,
whose second component is exactly the analog_index_map stored here. -/
def dir_create (chs : List SrChannel) (drv : Option Nat) (st : OutContext) : OutContext :=
  let samplerate := if st.samplerate = 0 then drv.getD st.samplerate else st.samplerate
  let (logic_channels, enabled_logic, enabled_analog) := count_channels chs
  let first := if enabled_logic > 0 then logic_channels + 1 else 1
  let amap := (meta_channel_entries first chs 0).2
  let unit := (logic_channels + 8 - 1) / 8
  let lalloc := if unit ≠ 0 then SR_CHUNK_SIZE / unit else SR_CHUNK_SIZE
  { st with
    samplerate := samplerate
    first_analog_index := first
    analog_ch_count := enabled_analog
    analog_index_map := amap
    logic_buff := { unit_size := unit, alloc_size := lalloc, samples := [],
                    fill_size := 0, next_chunk_num := 1 }
    analog_buff := List.replicate enabled_analog
      { alloc_size := SR_CHUNK_SIZE / sizeof_float, samples := [],
        fill_size := 0, next_chunk_num := 1 }
    dir_create_count := st.dir_create_count + 1 }

/-- dir_append (lines 269-303): write one logic chunk file.  A zero length
returns SR_OK before any file is opened.  Otherwise one I/O outcome is drawn
from the oracle; on success the chunk is recorded and next_chunk_num is
incremented, on failure SR_ERR is returned with the counter unchanged. -/
def dir_append (st : OutContext) (buf : List Nat) : OutContext × Option SrErr :=
  if buf.length = 0 then (st, none)
  else
    let io_ok := st.io.headD true
    let st1 := { st with io := st.io.tail }
    if io_ok then
      ({ st1 with
          chunks := st1.chunks ++ [Chunk.logic st1.logic_buff.next_chunk_num buf]
          logic_buff := { st1.logic_buff with
            next_chunk_num := st1.logic_buff.next_chunk_num + 1 } }, none)
    else (st1, some SrErr.err)

/-- The while loop of dir_append_queue (lines 340-359).  `send` counts samples
still to queue, `data` is the byte sequence at rdptr.  `fuel` bounds the
iteration count; dir_append_queue passes 2*send+2 which suffices whenever
alloc_size > 0 (the C loop spins forever when alloc_size = 0 and send > 0,
which requires an absurd channel count; running out of fuel returns the
current state, and in that situation the C loop likewise never writes). -/
def queue_loop (fuel : Nat) (st : OutContext) (data : List Nat) (send : Nat) :
    OutContext × Option SrErr :=
  match fuel with
  | 0 => (st, none)
  | fuel + 1 =>
    if send = 0 then (st, none)
    else
      let buff := st.logic_buff
      let remain := buff.alloc_size - buff.fill_size
      if remain ≠ 0 then
        let copy_size := min send remain
        let buff1 := { buff with
          fill_size := buff.fill_size + copy_size
          samples := buff.samples ++ data.take (copy_size * buff.unit_size) }
        let st1 := { st with logic_buff := buff1 }
        let data1 := data.drop (copy_size * buff.unit_size)
        let send1 := send - copy_size
        let remain1 := remain - copy_size
        if send1 ≠ 0 ∧ remain1 = 0 then
          match dir_append st1 buff1.samples with
          | (st2, some e) => (st2, some e)
          | (st2, none) =>
            let st3 := { st2 with logic_buff := { st2.logic_buff with
              fill_size := 0, samples := [] } }
            queue_loop fuel st3 data1 send1
        else queue_loop fuel st1 data1 send1
      else
        match dir_append st buff.samples with
        | (st2, some e) => (st2, some e)
        | (st2, none) =>
          let st3 := { st2 with logic_buff := { st2.logic_buff with
            fill_size := 0, samples := [] } }
          queue_loop fuel st3 data send

/-- dir_append_queue (lines 316-371): queue a logic block, flushing to chunk
files whenever the buffer fills, and once more at the end when `flush` is set
and samples remain.  `buf` carries the block's bytes (its length is the C
`length` argument). -/
def dir_append_queue (st : OutContext) (buf : List Nat) (unitsize : Nat) (flush : Bool) :
    OutContext × Option SrErr :=
  if buf.length ≠ 0 ∧ unitsize ≠ st.logic_buff.unit_size then
    (st, some SrErr.arg)
  else
    let send := if st.logic_buff.unit_size = 0 then 0
      else buf.length / st.logic_buff.unit_size
    match queue_loop (2 * send + 2) st buf send with
    | (st1, some e) => (st1, some e)
    | (st1, none) =>
      if flush ∧ st1.logic_buff.fill_size ≠ 0 then
        match dir_append st1 st1.logic_buff.samples with
        | (st2, some e) => (st2, some e)
        | (st2, none) =>
          ({ st2 with logic_buff := { st2.logic_buff with
              fill_size := 0, samples := [] } }, none)
      else (st1, none)

/-- dir_append_analog (lines 383-419): write one analog chunk file for 1-based
channel number ch_nr.  The buffer slot is ch_nr - first_analog_index.  One I/O
outcome is drawn; a successful open records the file.  fwrite with a zero byte
count returns 0 and is reported as SR_ERR.  Note that next_chunk_num is
incremented unconditionally, also on failure. -/
def dir_append_analog (st : OutContext) (values : List Nat) (ch_nr : Nat) :
    OutContext × Option SrErr :=
  let idx := ch_nr - st.first_analog_index
  let buff := st.analog_buff.getD idx AnalogBuff.empty
  let io_ok := st.io.headD true
  let st1 := { st with io := st.io.tail }
  let st2 := if io_ok then
      { st1 with chunks := st1.chunks ++ [Chunk.analog ch_nr buff.next_chunk_num values] }
    else st1
  let buffInc := { buff with next_chunk_num := buff.next_chunk_num + 1 }
  let st3 := { st2 with analog_buff := st2.analog_buff.set idx buffInc }
  if io_ok ∧ values.length ≠ 0 then (st3, none) else (st3, some SrErr.err)

/-- Structural core of the DF_END analog flush loop; `fuel` is the number of
remaining iterations, n - idx at every call. -/
def analog_end_flush_go (fuel : Nat) (st : OutContext) (n : Nat) (idx : Nat) :
    OutContext × Option SrErr :=
  match fuel with
  | 0 => (st, none)
  | fuel + 1 =>
    if idx < n then
      let nr := st.first_analog_index + idx
      let buff := st.analog_buff.getD idx AnalogBuff.empty
      if buff.fill_size = 0 then analog_end_flush_go fuel st n (idx + 1)
      else
        match dir_append_analog st buff.samples nr with
        | (st1, some e) => (st1, some e)
        | (st1, none) =>
          let buff1 := st1.analog_buff.getD idx AnalogBuff.empty
          let buff2 := { buff1 with fill_size := 0, samples := ([] : List Nat) }
          analog_end_flush_go fuel
            { st1 with analog_buff := st1.analog_buff.set idx buff2 } n (idx + 1)
    else (st, none)

/-- The DF_END flush loop of dir_append_analog_queue (lines 446-459): flush
every non-empty analog buffer.  `n` is outc->analog_ch_count, which no callee
modifies; the loop runs exactly the n - idx remaining iterations. -/
def analog_end_flush (st : OutContext) (n : Nat) (idx : Nat) : OutContext × Option SrErr :=
  analog_end_flush_go (n - idx) st n idx

/-- analog_end_flush satisfies the recursion of the C loop. -/
theorem analog_end_flush_unfold (st : OutContext) (n idx : Nat) :
    analog_end_flush st n idx =
      if idx < n then
        if (st.analog_buff.getD idx AnalogBuff.empty).fill_size = 0 then
          analog_end_flush st n (idx + 1)
        else
          match dir_append_analog st (st.analog_buff.getD idx AnalogBuff.empty).samples
              (st.first_analog_index + idx) with
          | (st1, some e) => (st1, some e)
          | (st1, none) =>
            analog_end_flush { st1 with analog_buff := (st1.analog_buff.set idx
              { st1.analog_buff.getD idx AnalogBuff.empty with
                fill_size := 0, samples := ([] : List Nat) }) } n (idx + 1)
      else (st, none) := by
  by_cases hlt : idx < n
  · have hfe : n - idx = (n - (idx + 1)) + 1 := by omega
    rw [if_pos hlt]
    show analog_end_flush_go (n - idx) st n idx = _
    rw [hfe]
    show (if idx < n then _ else _) = _
    rw [if_pos hlt]
    rfl
  · have hfe : n - idx = 0 := by omega
    rw [if_neg hlt]
    show analog_end_flush_go (n - idx) st n idx = _
    rw [hfe]
    rfl

/-- The copy/flush while loop of dir_append_analog_queue (lines 491-514),
operating on buffer slot `idx` for channel number `nr`. -/
def analog_loop (fuel : Nat) (st : OutContext) (idx nr : Nat) (data : List Nat) (send : Nat) :
    OutContext × Option SrErr :=
  match fuel with
  | 0 => (st, none)
  | fuel + 1 =>
    if send = 0 then (st, none)
    else
      let buff := st.analog_buff.getD idx AnalogBuff.empty
      let remain := buff.alloc_size - buff.fill_size
      if remain ≠ 0 then
        let copy_size := min send remain
        let buff1 := { buff with
          fill_size := buff.fill_size + copy_size
          samples := buff.samples ++ data.take copy_size }
        let st1 := { st with analog_buff := st.analog_buff.set idx buff1 }
        let data1 := data.drop copy_size
        let send1 := send - copy_size
        let remain1 := remain - copy_size
        if send1 ≠ 0 ∧ remain1 = 0 then
          match dir_append_analog st1 buff1.samples nr with
          | (st2, some e) => (st2, some e)
          | (st2, none) =>
            let buff2 := st2.analog_buff.getD idx AnalogBuff.empty
            let buff3 := { buff2 with fill_size := 0, samples := ([] : List Nat) }
            let st3 := { st2 with analog_buff := st2.analog_buff.set idx buff3 }
            analog_loop fuel st3 idx nr data1 send1
        else analog_loop fuel st1 idx nr data1 send1
      else
        match dir_append_analog st buff.samples nr with
        | (st2, some e) => (st2, some e)
        | (st2, none) =>
          let buff2 := st2.analog_buff.getD idx AnalogBuff.empty
          let buff3 := { buff2 with fill_size := 0, samples := ([] : List Nat) }
          let st3 := { st2 with analog_buff := st2.analog_buff.set idx buff3 }
          analog_loop fuel st3 idx nr data send

/-- One SR_DF_ANALOG payload.  `channels` lists the indices of the channels in
analog->meaning->channels; `values` are the float samples sr_analog_to_float
would produce (the external conversion service); `alloc_ok` is the
g_try_malloc0 outcome for the conversion array and `conv_ret` the conversion
service's error, if any. -/
structure AnalogEvent where
  channels : List Nat
  num_samples : Nat
  values : List Nat
  alloc_ok : Bool
  conv_ret : Option SrErr
deriving DecidableEq, Repr

/-- dir_append_analog_queue (lines 430-526).  `analog = none` models the
DF_END call with a NULL payload.  A NULL payload without the flush flag would
dereference NULL in C; the dispatcher never produces it, and it is modelled as
a plain error.  The conversion array is num_samples entries, zero-initialised,
filled by the conversion service. -/
def dir_append_analog_queue (st : OutContext) (analog : Option AnalogEvent) (flush : Bool) :
    OutContext × Option SrErr :=
  match analog with
  | none =>
    if flush then analog_end_flush st st.analog_ch_count 0
    else (st, some SrErr.err)
  | some ev =>
    if ev.channels.length ≠ 1 then (st, some SrErr.err)
    else
      let chIdx := ev.channels.headD 0
      let idx := (st.analog_index_map.take st.analog_ch_count).findIdx (· = chIdx)
      if idx = st.analog_ch_count then (st, some SrErr.arg)
      else
        let nr := st.first_analog_index + idx
        if !ev.alloc_ok then (st, some SrErr.malloc)
        else
          match ev.conv_ret with
          | some e => (st, some e)
          | none =>
            let vals := ev.values.take ev.num_samples ++
              List.replicate (ev.num_samples - ev.values.length) 0
            match analog_loop (2 * ev.num_samples + 2) st idx nr vals ev.num_samples with
            | (st1, some e) => (st1, some e)
            | (st1, none) =>
              let buff := st1.analog_buff.getD idx AnalogBuff.empty
              if flush ∧ buff.fill_size ≠ 0 then
                match dir_append_analog st1 buff.samples nr with
                | (st2, some e) => (st2, some e)
                | (st2, none) =>
                  let buff2 := st2.analog_buff.getD idx AnalogBuff.empty
                  let buff3 := { buff2 with fill_size := 0, samples := ([] : List Nat) }
                  ({ st2 with analog_buff := st2.analog_buff.set idx buff3 }, none)
              else (st1, none)

/-- Inbound datafeed packets.  A DF_META payload is its config list, reduced
to the samplerate entries (none = a key other than SR_CONF_SAMPLERATE). -/
inductive Packet where
  | df_meta (config : List (Option Nat))
  | df_logic (data : List Nat) (unitsize : Nat)
  | df_analog (ev : AnalogEvent)
  | df_end
deriving DecidableEq, Repr

/-- receive (lines 528-592): the packet dispatcher.  `chs` is o->sdi->channels
and `drv` the driver samplerate query, both fixed for the session. -/
def receive (chs : List SrChannel) (drv : Option Nat) (st : OutContext) (p : Packet) :
    OutContext × Option SrErr :=
  match p with
  | Packet.df_meta config =>
    ({ st with samplerate := config.foldl (fun acc o => o.getD acc) st.samplerate }, none)
  | Packet.df_logic data unitsize =>
    let st1 := if !st.dir_created then
        { dir_create chs drv st with dir_created := true }
      else st
    dir_append_queue st1 data unitsize false
  | Packet.df_analog ev =>
    let st1 := if !st.dir_created then
        { dir_create chs drv st with dir_created := true }
      else st
    dir_append_analog_queue st1 (some ev) false
  | Packet.df_end =>
    if st.dir_created then
      match dir_append_queue st [] 0 true with
      | (st1, some e) => (st1, some e)
      | (st1, none) => dir_append_analog_queue st1 none true
    else (st, none)

/-- Feed a packet sequence; the caller stops at the first error (spec section
7: the first error aborts the conversion). -/
def run (chs : List SrChannel) (drv : Option Nat) : OutContext → List Packet →
    OutContext × Option SrErr
  | st, [] => (st, none)
  | st, p :: ps =>
    match receive chs drv st p with
    | (st1, some e) => (st1, some e)
    | (st1, none) => run chs drv st1 ps

/-! Spec-side descriptions of the channel layout (section 4.1 of the spec),
written from the spec's words, to be compared with the code model. -/

/-- Spec: count of logic channels, enabled or not. -/
def spec_logic_count (chs : List SrChannel) : Nat :=
  (chs.filter fun c => c.chtype == ChType.logic).length

/-- Spec: count of enabled logic channels. -/
def spec_enabled_logic_count (chs : List SrChannel) : Nat :=
  (chs.filter fun c => c.enabled && c.chtype == ChType.logic).length

/-- Spec: count of enabled analog channels. -/
def spec_enabled_analog_count (chs : List SrChannel) : Nat :=
  (chs.filter fun c => c.enabled && c.chtype == ChType.analog).length

/-- Spec: the stable indices of the enabled analog channels, in declaration
order (the k-th entry is the original channel index of the k-th enabled
analog channel). -/
def spec_enabled_analog_indices (chs : List SrChannel) : List Nat :=
  (chs.filter fun c => c.enabled && c.chtype == ChType.analog).map (fun c => c.index)

/-- The analog numbers assigned by the metadata channel-name entries, in
declaration order. -/
def analogEntryNrs (es : List MetaEntry) : List Nat :=
  es.filterMap fun e => match e with
    | MetaEntry.analogName nr _ => some nr
    | _ => none

theorem count_channels_eq (chs : List SrChannel) :
    count_channels chs =
      (spec_logic_count chs, spec_enabled_logic_count chs, spec_enabled_analog_count chs) := by
  induction chs with
  | nil => rfl
  | cons ch rest ih =>
    simp only [count_channels, ih, spec_logic_count, spec_enabled_logic_count,
      spec_enabled_analog_count, List.filter_cons]
    cases h : ch.chtype <;> cases he : ch.enabled <;> simp [h, he]

theorem meta_channel_entries_map (first : Nat) (chs : List SrChannel) : ∀ i : Nat,
    (meta_channel_entries first chs i).2 = spec_enabled_analog_indices chs := by
  induction chs with
  | nil => intro i; rfl
  | cons ch rest ih =>
    intro i
    simp only [meta_channel_entries, spec_enabled_analog_indices, List.filter_cons]
    cases he : ch.enabled with
    | false => simpa [spec_enabled_analog_indices] using ih i
    | true =>
      cases h : ch.chtype with
      | logic => simpa [h, spec_enabled_analog_indices] using ih i
      | analog => simpa [h, spec_enabled_analog_indices] using ih (i + 1)

theorem meta_channel_entries_nrs (first : Nat) (chs : List SrChannel) : ∀ i : Nat,
    analogEntryNrs (meta_channel_entries first chs i).1 =
      List.range' (first + i) (spec_enabled_analog_count chs) := by
  induction chs with
  | nil => intro i; rfl
  | cons ch rest ih =>
    intro i
    simp only [meta_channel_entries, spec_enabled_analog_count, List.filter_cons]
    cases he : ch.enabled with
    | false => simpa [spec_enabled_analog_count] using ih i
    | true =>
      cases h : ch.chtype with
      | logic => simpa [h, analogEntryNrs, spec_enabled_analog_count] using ih i
      | analog =>
        have := ih (i + 1)
        simp [h, analogEntryNrs, spec_enabled_analog_count, List.range'_succ] at this ⊢
        rw [this]
        ring_nf

/-- C2: for a channel list with L logic channels, E of them enabled, and A
enabled analog channels, dir_create computes first_analog_index = L + 1 when
E > 0 and 1 otherwise, stores the index of the k-th enabled analog channel
(in declaration order) in slot k of analog_index_map, and the channel-name
loop assigns the analog numbers first_analog_index .. first_analog_index+A-1
to the enabled analog channels in declaration order; an empty channel list
yields zero counts and first_analog_index = 1. -/
theorem C2_channel_layout (chs : List SrChannel) (drv : Option Nat) (st : OutContext) :
    (dir_create chs drv st).first_analog_index =
      (if 0 < spec_enabled_logic_count chs then spec_logic_count chs + 1 else 1) ∧
    (dir_create chs drv st).analog_ch_count = spec_enabled_analog_count chs ∧
    (dir_create chs drv st).analog_index_map = spec_enabled_analog_indices chs ∧
    analogEntryNrs (meta_channel_entries (dir_create chs drv st).first_analog_index chs 0).1 =
      List.range' (dir_create chs drv st).first_analog_index (spec_enabled_analog_count chs) ∧
    count_channels ([] : List SrChannel) = (0, 0, 0) ∧
    (dir_create [] drv st).first_analog_index = 1 ∧
    (dir_create [] drv st).analog_ch_count = 0 := by
  have hfirst : (dir_create chs drv st).first_analog_index =
      (if 0 < spec_enabled_logic_count chs then spec_logic_count chs + 1 else 1) := by
    simp [dir_create, count_channels_eq]
  refine ⟨hfirst, ?_, ?_, ?_, rfl,
    by simp [dir_create, count_channels_eq, spec_enabled_logic_count, List.filter],
    by simp [dir_create, count_channels_eq, spec_enabled_analog_count, List.filter]⟩
  · simp [dir_create, count_channels_eq]
  · simp [dir_create, count_channels_eq, meta_channel_entries_map]
  · rw [hfirst]
    simpa using meta_channel_entries_nrs
      (if 0 < spec_enabled_logic_count chs then spec_logic_count chs + 1 else 1) chs 0

/-- A session with 17 logic channels, all enabled. -/
def chs17 : List SrChannel :=
  (List.range 17).map fun i => { index := i, chtype := ChType.logic, enabled := true, name := "" }

/-- C5 counterexample: with 17 logic channels the unit size is ceil(17/8) = 3
and the sample capacity is 4194304 / 3 = 1398101, so capacity times unit size
is 4194303, not exactly 4 MiB as the claim states. -/
theorem C5_counterexample :
    (dir_create chs17 none (init_state [])).logic_buff.unit_size = 3 ∧
    ¬ ((dir_create chs17 none (init_state [])).logic_buff.alloc_size *
        (dir_create chs17 none (init_state [])).logic_buff.unit_size = 4194304) := by
  constructor
  · decide
  · intro h
    have : (dir_create chs17 none (init_state [])).logic_buff.alloc_size *
        (dir_create chs17 none (init_state [])).logic_buff.unit_size = 4194303 := by decide
    omega

/-- C5 amended: for L > 0 logic channels dir_create sets the logic unit size
to ceil(L / 8) and the sample capacity to floor(4 MiB / unit_size), so that
capacity times unit_size is at most 4 MiB, with equality exactly when the
unit size divides 4 MiB (in particular for every power-of-two unit size);
each analog buffer's capacity is 4 MiB divided by sizeof(float). -/
theorem C5_buffer_sizes (chs : List SrChannel) (drv : Option Nat) (st : OutContext)
    (hL : 0 < spec_logic_count chs) :
    (dir_create chs drv st).logic_buff.unit_size = (spec_logic_count chs + 7) / 8 ∧
    0 < (dir_create chs drv st).logic_buff.unit_size ∧
    (dir_create chs drv st).logic_buff.alloc_size =
      SR_CHUNK_SIZE / (dir_create chs drv st).logic_buff.unit_size ∧
    (dir_create chs drv st).logic_buff.alloc_size *
      (dir_create chs drv st).logic_buff.unit_size ≤ SR_CHUNK_SIZE ∧
    (SR_CHUNK_SIZE % (dir_create chs drv st).logic_buff.unit_size = 0 →
      (dir_create chs drv st).logic_buff.alloc_size *
        (dir_create chs drv st).logic_buff.unit_size = SR_CHUNK_SIZE) ∧
    ∀ b ∈ (dir_create chs drv st).analog_buff, b.alloc_size = SR_CHUNK_SIZE / sizeof_float := by
  have hu : (dir_create chs drv st).logic_buff.unit_size = (spec_logic_count chs + 7) / 8 := by
    simp [dir_create, count_channels_eq]
  have hpos : 0 < (dir_create chs drv st).logic_buff.unit_size := by
    rw [hu]; exact Nat.div_pos (by omega) (by norm_num)
  have halloc : (dir_create chs drv st).logic_buff.alloc_size =
      SR_CHUNK_SIZE / (dir_create chs drv st).logic_buff.unit_size := by
    have : (spec_logic_count chs + 7) / 8 ≠ 0 := by rw [← hu]; omega
    simp [dir_create, count_channels_eq, this]
  refine ⟨hu, hpos, halloc, ?_, ?_, ?_⟩
  · rw [halloc]; exact Nat.div_mul_le_self _ _
  · intro hmod
    rw [halloc]
    exact Nat.div_mul_cancel (Nat.dvd_of_mod_eq_zero hmod)
  · intro b hb
    simp only [dir_create] at hb
    exact (List.eq_of_mem_replicate hb) ▸ rfl

/-- Channel list with a single enabled logic channel (C5 witness input). -/
def chsW : List SrChannel := [{ index := 0, chtype := ChType.logic, enabled := true, name := "D0" }]

theorem C5_buffer_sizes_witness :
    0 < spec_logic_count chsW ∧
    (dir_create chsW none (init_state [])).logic_buff.unit_size = (spec_logic_count chsW + 7) / 8 :=
  ⟨by decide, (C5_buffer_sizes chsW none (init_state []) (by decide)).1⟩

/-- A session state whose logic buffer was configured with unit size 2 (as
after dir_create for 9..16 logic channels, shrunk to a 2-sample capacity for
concrete evaluation). -/
def mismatch_state : OutContext :=
  { dir_created := true, samplerate := 0, first_analog_index := 1, analog_ch_count := 0,
    analog_index_map := [],
    logic_buff := { unit_size := 2, alloc_size := 2, samples := [], fill_size := 0,
                    next_chunk_num := 1 },
    analog_buff := [], chunks := [], dir_create_count := 1, io := [] }

/-- C3 counterexample: a queue call whose unit size argument (5) differs from
the configured unit size (2) but whose length is zero returns SR_OK, not an
argument error — the mismatch check is guarded by `length &&` in the C code
(the DF_END flush call relies on this, passing unitsize 0).  So not every
mismatched call fails. -/
theorem C3_counterexample :
    dir_append_queue mismatch_state [] 5 true = (mismatch_state, none) := by decide

/-- C3 amended: every queue_logic call with a nonzero length whose unit size
argument differs from the configured unit size fails with SR_ERR_ARG and
leaves the whole state (buffer fill, samples, chunk files, chunk numbers)
unchanged; a zero-length call is exempt from the check. -/
theorem C3_unit_size_mismatch (st : OutContext) (buf : List Nat) (unitsize : Nat) (flush : Bool)
    (hlen : buf.length ≠ 0) (hu : unitsize ≠ st.logic_buff.unit_size) :
    dir_append_queue st buf unitsize flush = (st, some SrErr.arg) := by
  simp [dir_append_queue, hlen, hu]

theorem C3_unit_size_mismatch_witness :
    ([1, 2] : List Nat).length ≠ 0 ∧ (3 : Nat) ≠ mismatch_state.logic_buff.unit_size ∧
    dir_append_queue mismatch_state [1, 2] 3 false = (mismatch_state, some SrErr.arg) :=
  ⟨by decide, by decide,
    C3_unit_size_mismatch mismatch_state [1, 2] 3 false (by decide) (by decide)⟩

theorem findIdx_lt_length_of_mem {l : List Nat} {x : Nat} (h : x ∈ l) :
    l.findIdx (· = x) < l.length := by
  induction l with
  | nil => cases h
  | cons a l ih =>
    by_cases ha : a = x
    · simp [List.findIdx_cons, ha]
    · rcases List.mem_cons.mp h with h' | h'
      · exact absurd h'.symm ha
      · simpa [List.findIdx_cons, ha] using Nat.succ_lt_succ (ih h')

theorem findIdx_eq_length_of_not_mem {l : List Nat} {x : Nat} (h : x ∉ l) :
    l.findIdx (· = x) = l.length := by
  induction l with
  | nil => rfl
  | cons a l ih =>
    simp only [List.mem_cons, not_or] at h
    simp [List.findIdx_cons, h.1, ih h.2, Ne.symm h.1]

/-- C8: a non-terminal queue_analog call whose event references a number of
channels other than one fails with the generic error code (the C code logs
"Analog packets covering multiple channels not supported yet" and returns
SR_ERR) and leaves the state untouched; a single-channel event whose channel
index is absent from analog_index_map fails with SR_ERR_ARG, likewise leaving
the state untouched. -/
theorem C8_analog_event_rejection (st : OutContext) (ev : AnalogEvent) (flush : Bool)
    (hmap : st.analog_index_map.length = st.analog_ch_count) :
    (ev.channels.length ≠ 1 →
      dir_append_analog_queue st (some ev) flush = (st, some SrErr.err)) ∧
    (∀ c, ev.channels = [c] → c ∉ st.analog_index_map →
      dir_append_analog_queue st (some ev) flush = (st, some SrErr.arg)) := by
  constructor
  · intro h
    simp [dir_append_analog_queue, h]
  · intro c hc hnot
    have htake : st.analog_index_map.take st.analog_ch_count = st.analog_index_map := by
      rw [← hmap]; exact List.take_length _
    have hfind : (st.analog_index_map.take st.analog_ch_count).findIdx (· = c) =
        st.analog_ch_count := by
      rw [htake, findIdx_eq_length_of_not_mem hnot, hmap]
    simp [dir_append_analog_queue, hc, hfind]

/-- State with one enabled analog channel mapped from channel index 4 (used
as concrete witness input). -/
def analog_state : OutContext :=
  { dir_created := true, samplerate := 0, first_analog_index := 1, analog_ch_count := 1,
    analog_index_map := [4],
    logic_buff := { unit_size := 0, alloc_size := SR_CHUNK_SIZE, samples := [], fill_size := 0,
                    next_chunk_num := 1 },
    analog_buff := [{ alloc_size := 4, samples := [], fill_size := 0, next_chunk_num := 1 }],
    chunks := [], dir_create_count := 1, io := [] }

theorem C8_analog_event_rejection_witness :
    analog_state.analog_index_map.length = analog_state.analog_ch_count ∧
    dir_append_analog_queue analog_state
      (some { channels := [1, 2], num_samples := 0, values := [], alloc_ok := true,
              conv_ret := none }) false = (analog_state, some SrErr.err) ∧
    dir_append_analog_queue analog_state
      (some { channels := [9], num_samples := 0, values := [], alloc_ok := true,
              conv_ret := none }) false = (analog_state, some SrErr.arg) :=
  ⟨by decide,
    (C8_analog_event_rejection analog_state _ false (by decide)).1 (by decide),
    (C8_analog_event_rejection analog_state _ false (by decide)).2 9 rfl (by decide)⟩

/-- C10: a non-terminal queue_analog call that fails before copying any
samples — multi-channel event, channel index missing from the map, failed
allocation of the conversion array, or a failing raw-to-float conversion —
returns its error with the session state completely unchanged: no buffer
fill, no chunk number and no chunk file is affected. -/
theorem C10_analog_failure_atomic (st : OutContext) (ev : AnalogEvent) (flush : Bool)
    (hmap : st.analog_index_map.length = st.analog_ch_count)
    (hfail : ev.channels.length ≠ 1 ∨ ev.channels.headD 0 ∉ st.analog_index_map ∨
      ev.alloc_ok = false ∨ ev.conv_ret.isSome) :
    (dir_append_analog_queue st (some ev) flush).1 = st ∧
    (dir_append_analog_queue st (some ev) flush).2.isSome := by
  have htake : st.analog_index_map.take st.analog_ch_count = st.analog_index_map := by
    rw [← hmap]; exact List.take_length _
  by_cases h1 : ev.channels.length ≠ 1
  · simp [dir_append_analog_queue, h1]
  · push_neg at h1
    by_cases h2 : ev.channels.headD 0 ∉ st.analog_index_map
    · have hfind : st.analog_index_map.findIdx (· = ev.channels.headD 0) =
          st.analog_ch_count := by
        rw [findIdx_eq_length_of_not_mem h2, hmap]
      rw [List.headD_eq_head?] at hfind
      simp [dir_append_analog_queue, h1, htake, hfind]
    · push_neg at h2
      have hlt : st.analog_index_map.findIdx (· = ev.channels.headD 0) <
          st.analog_ch_count := by
        rw [← hmap]; exact findIdx_lt_length_of_mem h2
      rw [List.headD_eq_head?] at hlt
      rcases hfail with h | h | h | h
      · exact absurd h1 h
      · exact absurd h2 h
      · simp [dir_append_analog_queue, h1, htake, Nat.ne_of_lt hlt, Nat.not_le.mpr hlt, h]
      · obtain ⟨e, he⟩ := Option.isSome_iff_exists.mp h
        cases hb : ev.alloc_ok <;>
          simp [dir_append_analog_queue, h1, htake, Nat.ne_of_lt hlt, Nat.not_le.mpr hlt, he, hb]

theorem C10_analog_failure_atomic_witness :
    analog_state.analog_index_map.length = analog_state.analog_ch_count ∧
    (dir_append_analog_queue analog_state
      (some { channels := [4], num_samples := 2, values := [1, 2], alloc_ok := false,
              conv_ret := none }) false).1 = analog_state ∧
    (dir_append_analog_queue analog_state
      (some { channels := [4], num_samples := 2, values := [1, 2], alloc_ok := false,
              conv_ret := none }) false).2.isSome :=
  ⟨by decide,
    (C10_analog_failure_atomic analog_state _ false (by decide)
      (Or.inr (Or.inr (Or.inl rfl)))).1,
    (C10_analog_failure_atomic analog_state _ false (by decide)
      (Or.inr (Or.inr (Or.inl rfl)))).2⟩

/-! Observations on the chunk-file log: the byte stream of the logic chunk
files, the logic chunk numbers, and the per-channel analog chunk numbers and
values, each in file-creation order. -/

/-- Concatenated bytes of all logic chunk files, in creation order. -/
def logicChunkBytes (cs : List Chunk) : List Nat :=
  (cs.filterMap fun c => match c with
    | Chunk.logic _ bytes => some bytes
    | _ => none).flatten

/-- Numbers of the logic chunk files, in creation order. -/
def logicNums (cs : List Chunk) : List Nat :=
  cs.filterMap fun c => match c with
    | Chunk.logic n _ => some n
    | _ => none

/-- Numbers of the analog chunk files of channel number nr, in creation
order. -/
def analogNums (nr : Nat) (cs : List Chunk) : List Nat :=
  cs.filterMap fun c => match c with
    | Chunk.analog m n _ => if m = nr then some n else none
    | _ => none

/-- The logic byte stream durably written or still buffered: chunk-file bytes
followed by the buffer content. -/
def logicStream (st : OutContext) : List Nat :=
  logicChunkBytes st.chunks ++ st.logic_buff.samples

theorem logicChunkBytes_append_logic (cs : List Chunk) (n : Nat) (b : List Nat) :
    logicChunkBytes (cs ++ [Chunk.logic n b]) = logicChunkBytes cs ++ b := by
  simp [logicChunkBytes]

theorem logicChunkBytes_append_analog (cs : List Chunk) (m n : Nat) (vs : List Nat) :
    logicChunkBytes (cs ++ [Chunk.analog m n vs]) = logicChunkBytes cs := by
  simp [logicChunkBytes]

theorem logicNums_append_logic (cs : List Chunk) (n : Nat) (b : List Nat) :
    logicNums (cs ++ [Chunk.logic n b]) = logicNums cs ++ [n] := by
  simp [logicNums]

theorem logicNums_append_analog (cs : List Chunk) (m n : Nat) (vs : List Nat) :
    logicNums (cs ++ [Chunk.analog m n vs]) = logicNums cs := by
  simp [logicNums]

theorem analogNums_append_logic (cs : List Chunk) (nr n : Nat) (b : List Nat) :
    analogNums nr (cs ++ [Chunk.logic n b]) = analogNums nr cs := by
  simp [analogNums]

theorem analogNums_append_analog (cs : List Chunk) (nr m n : Nat) (vs : List Nat) :
    analogNums nr (cs ++ [Chunk.analog m n vs]) =
      analogNums nr cs ++ (if m = nr then [n] else []) := by
  by_cases h : m = nr <;> simp [analogNums, h]

theorem pairwise_lt_append_singleton {l : List Nat} {x : Nat}
    (hs : List.Pairwise (· < ·) l) (hb : ∀ y ∈ l, y < x) :
    List.Pairwise (· < ·) (l ++ [x]) := by
  rw [List.pairwise_append]
  refine ⟨hs, List.pairwise_singleton _ _, ?_⟩
  intro a ha b hb'
  simp only [List.mem_singleton] at hb'
  subst hb'
  exact hb a ha

/-- Precondition/invariant of the logic queue path under an all-success I/O
oracle: the valid bytes match the fill count, the fill fits the buffer, and
the recorded logic chunk numbers are sorted below the next number. -/
structure LPre (st : OutContext) : Prop where
  io_nil : st.io = []
  len_eq : st.logic_buff.samples.length = st.logic_buff.fill_size * st.logic_buff.unit_size
  fill_le : st.logic_buff.fill_size ≤ st.logic_buff.alloc_size
  bound : ∀ n ∈ logicNums st.chunks, n < st.logic_buff.next_chunk_num
  sorted : List.Pairwise (· < ·) (logicNums st.chunks)

theorem dir_append_success (st : OutContext) (buf : List Nat) (hio : st.io = [])
    (hne : buf.length ≠ 0) :
    dir_append st buf = ({ st with
      chunks := st.chunks ++ [Chunk.logic st.logic_buff.next_chunk_num buf]
      logic_buff := { st.logic_buff with
        next_chunk_num := st.logic_buff.next_chunk_num + 1 } }, none) := by
  obtain ⟨dc, sr, fa, ac, map, lb, ab, cks, dcc, io⟩ := st
  simp only at hio
  subst hio
  simp [dir_append, hne]

/-- The queue loop under an all-success I/O oracle: it never fails, keeps the
buffer well formed, and moves exactly the first send*unit_size bytes of the
block into the stream of written-or-buffered bytes.  The fuel bound 2*send+1
(plus 1 more when the buffer starts full) is sufficient. -/
theorem queue_loop_spec (fuel : Nat) : ∀ (st : OutContext) (data : List Nat) (send : Nat),
    LPre st → 0 < st.logic_buff.unit_size → 0 < st.logic_buff.alloc_size →
    send * st.logic_buff.unit_size ≤ data.length →
    2 * send + (if st.logic_buff.alloc_size ≤ st.logic_buff.fill_size then 2 else 1) ≤ fuel →
    (queue_loop fuel st data send).2 = none ∧
    LPre (queue_loop fuel st data send).1 ∧
    (queue_loop fuel st data send).1.logic_buff.unit_size = st.logic_buff.unit_size ∧
    (queue_loop fuel st data send).1.logic_buff.alloc_size = st.logic_buff.alloc_size ∧
    logicStream (queue_loop fuel st data send).1 =
      logicStream st ++ data.take (send * st.logic_buff.unit_size) := by
  induction fuel with
  | zero =>
    intro st data send hpre hu ha hdata hfuel
    split_ifs at hfuel <;> omega
  | succ fuel ih =>
    intro st data send hpre hu ha hdata hfuel
    obtain ⟨dc, sr, fa, ac, map, ⟨u, a, smp, f, nx⟩, ab, cks, dcc, io⟩ := st
    obtain ⟨hio, hlen, hfle, hbound, hsorted⟩ := hpre
    dsimp only at hio hlen hfle hbound hsorted hu ha hdata hfuel ⊢
    subst hio
    by_cases hsend : send = 0
    · subst hsend
      simp only [queue_loop, if_pos rfl]
      exact ⟨rfl, ⟨rfl, hlen, hfle, hbound, hsorted⟩, rfl, rfl, by simp⟩
    · have hbound' : ∀ n ∈ logicNums (cks ++ [Chunk.logic nx
          (smp ++ data.take ((send ⊓ (a - f)) * u))]), n < nx + 1 := by
        rw [logicNums_append_logic]
        intro n hn
        rcases List.mem_append.mp hn with h | h
        · exact Nat.lt_succ_of_lt (hbound n h)
        · simp only [List.mem_singleton] at h; omega
      have hsorted' : List.Pairwise (· < ·) (logicNums (cks ++ [Chunk.logic nx
          (smp ++ data.take ((send ⊓ (a - f)) * u))])) := by
        rw [logicNums_append_logic]
        exact pairwise_lt_append_singleton hsorted hbound
      by_cases hflt : f < a
      · -- the buffer has room: copy min(send, remain) samples
        have hremne : a - f ≠ 0 := by omega
        have hc1 : 1 ≤ send ⊓ (a - f) := by omega
        have hcse : send ⊓ (a - f) ≤ send := Nat.min_le_left _ _
        have hcu_le : (send ⊓ (a - f)) * u ≤ data.length :=
          le_trans (Nat.mul_le_mul_right u hcse) hdata
        have htklen : (data.take ((send ⊓ (a - f)) * u)).length = (send ⊓ (a - f)) * u := by
          rw [List.length_take]; omega
        have hcu1 : 1 ≤ (send ⊓ (a - f)) * u := Nat.one_le_iff_ne_zero.mpr
          (Nat.mul_ne_zero (by omega) (by omega))
        have hsum : send * u = (send ⊓ (a - f)) * u + (send - send ⊓ (a - f)) * u := by
          rw [← Nat.add_mul]; congr 1; omega
        have hdata' : (send - send ⊓ (a - f)) * u ≤ (data.drop ((send ⊓ (a - f)) * u)).length := by
          rw [List.length_drop, Nat.sub_mul]; omega
        by_cases hfl : send - send ⊓ (a - f) ≠ 0 ∧ a - f - send ⊓ (a - f) = 0
        · -- samples remain and the buffer became full: flush mid-loop
          have hbuf1 : (smp ++ data.take ((send ⊓ (a - f)) * u)).length ≠ 0 := by
            rw [List.length_append, htklen]; omega
          have hstep : queue_loop (fuel + 1)
              ⟨dc, sr, fa, ac, map, ⟨u, a, smp, f, nx⟩, ab, cks, dcc, []⟩ data send =
              queue_loop fuel
                ⟨dc, sr, fa, ac, map, ⟨u, a, [], 0, nx + 1⟩, ab,
                  cks ++ [Chunk.logic nx (smp ++ data.take ((send ⊓ (a - f)) * u))], dcc, []⟩
                (data.drop ((send ⊓ (a - f)) * u)) (send - send ⊓ (a - f)) := by
            simp only [queue_loop]
            rw [if_neg hsend, if_pos hremne, if_pos hfl, dir_append_success _ _ rfl hbuf1]
          rw [hstep]
          have hIH := ih ⟨dc, sr, fa, ac, map, ⟨u, a, [], 0, nx + 1⟩, ab,
              cks ++ [Chunk.logic nx (smp ++ data.take ((send ⊓ (a - f)) * u))], dcc, []⟩
            (data.drop ((send ⊓ (a - f)) * u)) (send - send ⊓ (a - f))
            ⟨rfl, by simp, by dsimp only; omega, hbound', hsorted'⟩ hu ha hdata'
            (by dsimp only; rw [if_neg (by omega : ¬ a ≤ 0)]
                rw [if_neg (by omega : ¬ a ≤ f)] at hfuel; omega)
          obtain ⟨h1, h2, h3, h4, h5⟩ := hIH
          refine ⟨h1, h2, h3, h4, ?_⟩
          rw [h5]
          simp only [logicStream, logicChunkBytes_append_logic]
          rw [hsum, List.take_add]
          simp [List.append_assoc]
        · -- everything fit (or the buffer is not yet full): no mid-loop flush
          have hstep : queue_loop (fuel + 1)
              ⟨dc, sr, fa, ac, map, ⟨u, a, smp, f, nx⟩, ab, cks, dcc, []⟩ data send =
              queue_loop fuel
                ⟨dc, sr, fa, ac, map,
                  ⟨u, a, smp ++ data.take ((send ⊓ (a - f)) * u), f + send ⊓ (a - f), nx⟩, ab,
                  cks, dcc, []⟩
                (data.drop ((send ⊓ (a - f)) * u)) (send - send ⊓ (a - f)) := by
            simp only [queue_loop]
            rw [if_neg hsend, if_pos hremne, if_neg hfl]
          rw [hstep]
          rw [not_and_or] at hfl
          push_neg at hfl
          have hIH := ih ⟨dc, sr, fa, ac, map,
              ⟨u, a, smp ++ data.take ((send ⊓ (a - f)) * u), f + send ⊓ (a - f), nx⟩, ab,
              cks, dcc, []⟩
            (data.drop ((send ⊓ (a - f)) * u)) (send - send ⊓ (a - f))
            ⟨rfl, by dsimp only; rw [List.length_append, htklen, hlen, Nat.add_mul],
              by dsimp only; omega, hbound, hsorted⟩ hu ha hdata'
            (by dsimp only
                rw [if_neg (by omega : ¬ a ≤ f)] at hfuel
                rcases hfl with h | h
                · rw [h]
                  split_ifs <;> omega
                · rw [if_neg (by omega : ¬ a ≤ f + send ⊓ (a - f))]; omega)
          obtain ⟨h1, h2, h3, h4, h5⟩ := hIH
          refine ⟨h1, h2, h3, h4, ?_⟩
          rw [h5]
          simp only [logicStream]
          rw [hsum, List.take_add]
          simp [List.append_assoc]
      · -- no room at entry: flush the full buffer first
        have hfeq : f = a := by omega
        have hbuf : smp.length ≠ 0 := by
          rw [hlen]
          exact Nat.mul_ne_zero (by omega) (by omega)
        have hbound2 : ∀ n ∈ logicNums (cks ++ [Chunk.logic nx smp]), n < nx + 1 := by
          rw [logicNums_append_logic]
          intro n hn
          rcases List.mem_append.mp hn with h | h
          · exact Nat.lt_succ_of_lt (hbound n h)
          · simp only [List.mem_singleton] at h; omega
        have hsorted2 : List.Pairwise (· < ·) (logicNums (cks ++ [Chunk.logic nx smp])) := by
          rw [logicNums_append_logic]
          exact pairwise_lt_append_singleton hsorted hbound
        have hstep : queue_loop (fuel + 1)
            ⟨dc, sr, fa, ac, map, ⟨u, a, smp, f, nx⟩, ab, cks, dcc, []⟩ data send =
            queue_loop fuel
              ⟨dc, sr, fa, ac, map, ⟨u, a, [], 0, nx + 1⟩, ab,
                cks ++ [Chunk.logic nx smp], dcc, []⟩ data send := by
          simp only [queue_loop]
          rw [if_neg hsend, if_neg (by omega : ¬ (a - f ≠ 0)),
            dir_append_success _ _ rfl hbuf]
        rw [hstep]
        have hIH := ih ⟨dc, sr, fa, ac, map, ⟨u, a, [], 0, nx + 1⟩, ab,
            cks ++ [Chunk.logic nx smp], dcc, []⟩ data send
          ⟨rfl, by simp, by dsimp only; omega, hbound2, hsorted2⟩ hu ha hdata
          (by dsimp only
              rw [if_neg (by omega : ¬ a ≤ 0)]
              rw [if_pos (by omega : a ≤ f)] at hfuel
              omega)
        obtain ⟨h1, h2, h3, h4, h5⟩ := hIH
        refine ⟨h1, h2, h3, h4, ?_⟩
        rw [h5]
        simp [logicStream, logicChunkBytes_append_logic]

theorem queue_loop_zero (fuel : Nat) (st : OutContext) (data : List Nat) :
    queue_loop (fuel + 1) st data 0 = (st, none) := by
  simp [queue_loop]

/-- One queue call under an all-success oracle, provided the unit-size guard
passes (zero length or matching unit size): it succeeds, preserves the
invariant and the buffer geometry, moves exactly the whole samples of the
block (length/unit_size of them) into the stream, and leaves an empty buffer
when a final flush was requested. -/
theorem dir_append_queue_spec (st : OutContext) (buf : List Nat) (unitsize : Nat) (flush : Bool)
    (hpre : LPre st) (ha : 0 < st.logic_buff.alloc_size)
    (hguard : buf.length = 0 ∨ unitsize = st.logic_buff.unit_size) :
    (dir_append_queue st buf unitsize flush).2 = none ∧
    LPre (dir_append_queue st buf unitsize flush).1 ∧
    (dir_append_queue st buf unitsize flush).1.logic_buff.unit_size =
      st.logic_buff.unit_size ∧
    (dir_append_queue st buf unitsize flush).1.logic_buff.alloc_size =
      st.logic_buff.alloc_size ∧
    logicStream (dir_append_queue st buf unitsize flush).1 =
      logicStream st ++
        buf.take (buf.length / st.logic_buff.unit_size * st.logic_buff.unit_size) ∧
    (flush = true → (dir_append_queue st buf unitsize flush).1.logic_buff.samples = []) := by
  have hcond : ¬(buf.length ≠ 0 ∧ unitsize ≠ st.logic_buff.unit_size) := by
    rcases hguard with h | h <;> simp [h]
  by_cases hu0 : st.logic_buff.unit_size = 0
  · -- no logic channels: zero samples are queued
    have hsmp : st.logic_buff.samples = [] :=
      List.eq_nil_of_length_eq_zero (by rw [hpre.len_eq, hu0, Nat.mul_zero])
    have hALL : dir_append_queue st buf unitsize flush =
        (if flush = true ∧ st.logic_buff.fill_size ≠ 0 then
          ({ st with logic_buff := { st.logic_buff with fill_size := 0, samples := [] } }, none)
        else (st, none)) := by
      have hsend0 : (if st.logic_buff.unit_size = 0 then 0
          else buf.length / st.logic_buff.unit_size) = 0 := if_pos hu0
      rw [dir_append_queue, if_neg hcond]
      simp only [hsend0]
      rw [show (2 * 0 + 2 : Nat) = 1 + 1 by rfl, queue_loop_zero]
      dsimp only
      split_ifs with hfl
      · rw [hsmp]
        simp [dir_append]
      · rfl
    rw [hALL]
    split_ifs with hfl
    · refine ⟨rfl, ⟨hpre.io_nil, by simp, by simpa using Nat.zero_le _,
        hpre.bound, hpre.sorted⟩, rfl, rfl, ?_, fun _ => rfl⟩
      simp [logicStream, hsmp, hu0]
    · refine ⟨rfl, hpre, rfl, rfl, by simp [logicStream, hu0], ?_⟩
      intro hft
      rw [hsmp]
  · -- logic channels exist
    have hu : 0 < st.logic_buff.unit_size := Nat.pos_of_ne_zero hu0
    have hdata : buf.length / st.logic_buff.unit_size * st.logic_buff.unit_size ≤
        buf.length := Nat.div_mul_le_self _ _
    have hfuel : 2 * (buf.length / st.logic_buff.unit_size) +
        (if st.logic_buff.alloc_size ≤ st.logic_buff.fill_size then 2 else 1) ≤
        2 * (buf.length / st.logic_buff.unit_size) + 2 := by
      split_ifs <;> omega
    have hloop := queue_loop_spec (2 * (buf.length / st.logic_buff.unit_size) + 2)
      st buf (buf.length / st.logic_buff.unit_size) hpre hu ha hdata hfuel
    obtain ⟨hl1, hl2, hl3, hl4, hl5⟩ := hloop
    have hsend0 : (if st.logic_buff.unit_size = 0 then 0
        else buf.length / st.logic_buff.unit_size) = buf.length / st.logic_buff.unit_size :=
      if_neg hu0
    set q := queue_loop (2 * (buf.length / st.logic_buff.unit_size) + 2) st buf
      (buf.length / st.logic_buff.unit_size) with hqdef
    have hq : q = (q.1, none) := by
      rw [← hl1]
    rw [dir_append_queue, if_neg hcond]
    simp only [hsend0]
    rw [← hqdef, hq]
    dsimp only
    by_cases hfl : flush = true ∧ q.1.logic_buff.fill_size ≠ 0
    · have hsm_ne : q.1.logic_buff.samples.length ≠ 0 := by
        rw [hl2.len_eq, hl3]
        exact Nat.mul_ne_zero hfl.2 hu0
      have happ := dir_append_success q.1 q.1.logic_buff.samples hl2.io_nil hsm_ne
      simp only [if_pos hfl, happ]
      refine ⟨trivial, ⟨hl2.io_nil, by simp, Nat.zero_le _, ?_, ?_⟩, hl3, hl4, ?_,
        fun _ => trivial⟩
      · dsimp only
        rw [logicNums_append_logic]
        intro n hn
        rcases List.mem_append.mp hn with h | h
        · exact Nat.lt_succ_of_lt (hl2.bound n h)
        · simp only [List.mem_singleton] at h
          omega
      · dsimp only
        rw [logicNums_append_logic]
        exact pairwise_lt_append_singleton hl2.sorted hl2.bound
      · simp only [logicStream] at hl5 ⊢
        rw [logicChunkBytes_append_logic, List.append_nil]
        exact hl5
    · simp only [if_neg hfl]
      refine ⟨trivial, hl2, hl3, hl4, hl5, ?_⟩
      intro hft
      have hf0 : q.1.logic_buff.fill_size = 0 := by
        by_contra hne
        exact hfl ⟨hft, hne⟩
      exact List.eq_nil_of_length_eq_zero (by rw [hl2.len_eq, hf0, Nat.zero_mul])

/-- A session segment at the queue_logic level: feed each block through
dir_append_queue with the configured unit size (as the dispatcher does for
SR_DF_LOGIC packets), stopping at the first error. -/
def queue_logic_blocks (st : OutContext) : List (List Nat) → OutContext × Option SrErr
  | [] => (st, none)
  | b :: bs =>
    match dir_append_queue st b st.logic_buff.unit_size false with
    | (st1, some e) => (st1, some e)
    | (st1, none) => queue_logic_blocks st1 bs

theorem queue_logic_blocks_spec (blocks : List (List Nat)) : ∀ (st : OutContext),
    LPre st → 0 < st.logic_buff.alloc_size → 0 < st.logic_buff.unit_size →
    (∀ b ∈ blocks, b.length % st.logic_buff.unit_size = 0) →
    (queue_logic_blocks st blocks).2 = none ∧
    LPre (queue_logic_blocks st blocks).1 ∧
    (queue_logic_blocks st blocks).1.logic_buff.unit_size = st.logic_buff.unit_size ∧
    (queue_logic_blocks st blocks).1.logic_buff.alloc_size = st.logic_buff.alloc_size ∧
    logicStream (queue_logic_blocks st blocks).1 = logicStream st ++ blocks.flatten := by
  induction blocks with
  | nil =>
    intro st hpre ha hu hdvd
    exact ⟨rfl, hpre, rfl, rfl, by simp [queue_logic_blocks]⟩
  | cons b bs ih =>
    intro st hpre ha hu hdvd
    obtain ⟨h1, h2, h3, h4, h5, _⟩ :=
      dir_append_queue_spec st b st.logic_buff.unit_size false hpre ha (Or.inr rfl)
    have hq : dir_append_queue st b st.logic_buff.unit_size false =
        ((dir_append_queue st b st.logic_buff.unit_size false).1, none) := by
      rw [← h1]
    have hstep : queue_logic_blocks st (b :: bs) =
        queue_logic_blocks (dir_append_queue st b st.logic_buff.unit_size false).1 bs := by
      rw [queue_logic_blocks, hq]
    rw [hstep]
    have hdvd' : ∀ b' ∈ bs, b'.length %
        (dir_append_queue st b st.logic_buff.unit_size false).1.logic_buff.unit_size = 0 := by
      intro b' hb'
      rw [h3]
      exact hdvd b' (List.mem_cons_of_mem _ hb')
    obtain ⟨g1, g2, g3, g4, g5⟩ := ih (dir_append_queue st b st.logic_buff.unit_size false).1
      h2 (by rw [h4]; exact ha) (by rw [h3]; exact hu) hdvd'
    refine ⟨g1, g2, by rw [g3, h3], by rw [g4, h4], ?_⟩
    have hwhole : b.take (b.length / st.logic_buff.unit_size * st.logic_buff.unit_size) = b := by
      rw [Nat.div_mul_cancel (Nat.dvd_of_mod_eq_zero (hdvd b (List.mem_cons_self b bs)))]
      exact List.take_length b
    rw [g5, h5, hwhole, List.flatten_cons, List.append_assoc]

/-- C1 counterexample: with a configured unit size of 2, the two one-byte
blocks [9] and [7] have a total length of 2, a multiple of the unit size, yet
after a final flush no logic chunk file holds any bytes — each call drops its
trailing partial sample, so samples are lost when only the total (not each
block) is a multiple of the unit size. -/
theorem C1_counterexample :
    mismatch_state.logic_buff.unit_size = 2 ∧
    ([[9], [7]] : List (List Nat)).flatten.length % mismatch_state.logic_buff.unit_size = 0 ∧
    (queue_logic_blocks mismatch_state [[9], [7]]).2 = none ∧
    logicChunkBytes ((dir_append_queue (queue_logic_blocks mismatch_state [[9], [7]]).1
        [] 0 true).1.chunks) ≠ ([[9], [7]] : List (List Nat)).flatten := by
  decide

/-- C1 amended: for every sequence of queue_logic calls, each with the
configured unit size u > 0 and each block length a multiple of u (the claim
required only the total length to be a multiple, but each call independently
drops its trailing partial sample, see the counterexample), followed by a
final flush, the concatenated bytes of all logic chunk writes equal the
concatenation of the input blocks, and the chunk numbers are strictly
increasing in write order — no sample is lost, duplicated or reordered, for
arbitrarily large blocks relative to the buffer capacity. -/
theorem C1_logic_roundtrip (st0 : OutContext) (blocks : List (List Nat))
    (hio : st0.io = []) (hchunks : st0.chunks = [])
    (hfill : st0.logic_buff.fill_size = 0) (hsmp : st0.logic_buff.samples = [])
    (hu : 0 < st0.logic_buff.unit_size) (ha : 0 < st0.logic_buff.alloc_size)
    (hdvd : ∀ b ∈ blocks, b.length % st0.logic_buff.unit_size = 0) :
    (queue_logic_blocks st0 blocks).2 = none ∧
    (dir_append_queue (queue_logic_blocks st0 blocks).1 [] 0 true).2 = none ∧
    logicChunkBytes (dir_append_queue (queue_logic_blocks st0 blocks).1 [] 0 true).1.chunks =
      blocks.flatten ∧
    List.Pairwise (· < ·)
      (logicNums (dir_append_queue (queue_logic_blocks st0 blocks).1 [] 0 true).1.chunks) := by
  have hpre : LPre st0 := by
    refine ⟨hio, by rw [hsmp, hfill]; simp, by rw [hfill]; exact Nat.zero_le _, ?_, ?_⟩
    · rw [hchunks]; intro n hn; cases hn
    · rw [hchunks]; exact List.Pairwise.nil
  obtain ⟨h1, h2, h3, h4, h5⟩ := queue_logic_blocks_spec blocks st0 hpre ha hu hdvd
  obtain ⟨g1, g2, g3, g4, g5, g6⟩ := dir_append_queue_spec (queue_logic_blocks st0 blocks).1
    [] 0 true h2 (by rw [h4]; exact ha) (Or.inl rfl)
  refine ⟨h1, g1, ?_, g2.sorted⟩
  have hstream0 : logicStream st0 = [] := by
    simp [logicStream, hchunks, hsmp, logicChunkBytes]
  have hfinal : logicStream (dir_append_queue (queue_logic_blocks st0 blocks).1
      [] 0 true).1 = blocks.flatten := by
    rw [g5, h5, hstream0]
    simp
  rw [logicStream, g6 rfl, List.append_nil] at hfinal
  exact hfinal

theorem C1_logic_roundtrip_witness :
    (queue_logic_blocks mismatch_state [[1, 2, 3, 4], [5, 6]]).2 = none ∧
    logicChunkBytes (dir_append_queue
        (queue_logic_blocks mismatch_state [[1, 2, 3, 4], [5, 6]]).1 [] 0 true).1.chunks =
      ([[1, 2, 3, 4], [5, 6]] : List (List Nat)).flatten :=
  ⟨(C1_logic_roundtrip mismatch_state [[1, 2, 3, 4], [5, 6]] rfl rfl rfl rfl
      (by decide) (by decide) (by decide)).1,
    (C1_logic_roundtrip mismatch_state [[1, 2, 3, 4], [5, 6]] rfl rfl rfl rfl
      (by decide) (by decide) (by decide)).2.2.1⟩

/-- State of a session configured without logic channels (unit size 0). -/
def zero_unit_state : OutContext :=
  { dir_created := true, samplerate := 0, first_analog_index := 1, analog_ch_count := 0,
    analog_index_map := [],
    logic_buff := { unit_size := 0, alloc_size := SR_CHUNK_SIZE, samples := [], fill_size := 0,
                    next_chunk_num := 1 },
    analog_buff := [], chunks := [], dir_create_count := 1, io := [] }

/-- C7 counterexample: with a configured unit size of 0, a call whose
unit-size argument is 1 and carries one byte does not succeed — it fails the
unit-size guard with SR_ERR_ARG.  So not every call succeeds when the
configured unit size is 0. -/
theorem C7_counterexample :
    zero_unit_state.logic_buff.unit_size = 0 ∧
    dir_append_queue zero_unit_state [5] 1 false = (zero_unit_state, some SrErr.arg) := by
  decide

/-- C7 amended: a queue_logic call with matching unit size u > 0 and a length
that is not a multiple of u succeeds (non-fatally) and exactly
floor(length/u) samples enter the buffered stream — the trailing length mod u
bytes are dropped; when the configured unit size is 0, a call whose unit-size
argument is also 0 (or whose length is 0 — a nonzero length with a nonzero
unit-size argument instead fails the mismatch guard, see the counterexample)
buffers zero samples and succeeds. -/
theorem C7_length_truncation (st : OutContext) (buf : List Nat) (unitsize : Nat) (flush : Bool)
    (hpre : LPre st) (ha : 0 < st.logic_buff.alloc_size) :
    (0 < st.logic_buff.unit_size → buf.length % st.logic_buff.unit_size ≠ 0 →
      (dir_append_queue st buf st.logic_buff.unit_size flush).2 = none ∧
      logicStream (dir_append_queue st buf st.logic_buff.unit_size flush).1 =
        logicStream st ++
          buf.take (buf.length / st.logic_buff.unit_size * st.logic_buff.unit_size)) ∧
    (st.logic_buff.unit_size = 0 → (unitsize = 0 ∨ buf.length = 0) →
      (dir_append_queue st buf unitsize flush).2 = none ∧
      logicStream (dir_append_queue st buf unitsize flush).1 = logicStream st) := by
  constructor
  · intro hu hmod
    obtain ⟨h1, _, _, _, h5, _⟩ :=
      dir_append_queue_spec st buf st.logic_buff.unit_size flush hpre ha (Or.inr rfl)
    exact ⟨h1, h5⟩
  · intro hu0 hcall
    have hguard : buf.length = 0 ∨ unitsize = st.logic_buff.unit_size := by
      rcases hcall with h | h
      · right; rw [h, hu0]
      · left; exact h
    obtain ⟨h1, _, _, _, h5, _⟩ := dir_append_queue_spec st buf unitsize flush hpre ha hguard
    rw [hu0] at h5
    simp only [Nat.div_zero, Nat.zero_mul, List.take_zero, List.append_nil] at h5
    exact ⟨h1, h5⟩

theorem C7_length_truncation_witness :
    0 < mismatch_state.logic_buff.unit_size ∧
    ([1, 2, 3] : List Nat).length % mismatch_state.logic_buff.unit_size ≠ 0 ∧
    (dir_append_queue mismatch_state [1, 2, 3]
      mismatch_state.logic_buff.unit_size false).2 = none ∧
    logicStream (dir_append_queue mismatch_state [1, 2, 3]
        mismatch_state.logic_buff.unit_size false).1 =
      logicStream mismatch_state ++ [1, 2] :=
  ⟨by decide, by decide,
    ((C7_length_truncation mismatch_state [1, 2, 3] 0 false
      ⟨rfl, rfl, by decide, by decide, by decide⟩ (by decide)).1 (by decide) (by decide)).1,
    by
      have := ((C7_length_truncation mismatch_state [1, 2, 3] 0 false
        ⟨rfl, rfl, by decide, by decide, by decide⟩ (by decide)).1 (by decide) (by decide)).2
      simpa using this⟩

/-! Session-wide invariant, preserved by every operation under every I/O
oracle: the analog buffer table matches the channel count, every buffer is
well formed with a positive capacity, every recorded chunk file is non-empty,
and the recorded chunk numbers of each buffer are strictly increasing and
below that buffer's next number. -/

structure Inv (st : OutContext) : Prop where
  alen : st.analog_buff.length = st.analog_ch_count
  abuf : ∀ b ∈ st.analog_buff, b.samples.length = b.fill_size ∧
    b.fill_size ≤ b.alloc_size ∧ 0 < b.alloc_size
  cpos : ∀ c ∈ st.chunks, 0 < chunkByteLen c
  lbound : ∀ n ∈ logicNums st.chunks, n < st.logic_buff.next_chunk_num
  lsorted : List.Pairwise (· < ·) (logicNums st.chunks)
  abound : ∀ idx, idx < st.analog_ch_count →
    ∀ n ∈ analogNums (st.first_analog_index + idx) st.chunks,
      n < (st.analog_buff.getD idx AnalogBuff.empty).next_chunk_num
  asorted : ∀ nr, List.Pairwise (· < ·) (analogNums nr st.chunks)

/-- Fields no append-type operation ever modifies. -/
def SessionFrame (st st' : OutContext) : Prop :=
  st'.dir_created = st.dir_created ∧ st'.dir_create_count = st.dir_create_count ∧
  st'.analog_ch_count = st.analog_ch_count ∧
  st'.first_analog_index = st.first_analog_index ∧
  st'.analog_index_map = st.analog_index_map

theorem SessionFrame.refl (st : OutContext) : SessionFrame st st :=
  ⟨rfl, rfl, rfl, rfl, rfl⟩

theorem SessionFrame.trans {s1 s2 s3 : OutContext}
    (h1 : SessionFrame s1 s2) (h2 : SessionFrame s2 s3) : SessionFrame s1 s3 := by
  obtain ⟨a1, b1, c1, d1, e1⟩ := h1
  obtain ⟨a2, b2, c2, d2, e2⟩ := h2
  exact ⟨a2.trans a1, b2.trans b1, c2.trans c1, d2.trans d1, e2.trans e1⟩

theorem getD_set_ne {l : List AnalogBuff} {i j : Nat} (h : i ≠ j) (a d : AnalogBuff) :
    (l.set i a).getD j d = l.getD j d := by
  simp [List.getD_eq_getElem?_getD, List.getElem?_set_ne h]

theorem getD_set_self {l : List AnalogBuff} {i : Nat} (h : i < l.length) (a d : AnalogBuff) :
    (l.set i a).getD i d = a := by
  simp [List.getD_eq_getElem?_getD, List.getElem?_set_self', List.getElem?_eq_getElem h]

theorem getD_mem {l : List AnalogBuff} {i : Nat} (h : i < l.length) (d : AnalogBuff) :
    l.getD i d ∈ l := by
  rw [List.getD_eq_getElem l d h]
  exact List.getElem_mem h

/-- dir_append preserves the session invariant under any oracle, and touches
nothing except io, chunks and the logic chunk number. -/
theorem dir_append_inv (st : OutContext) (buf : List Nat) (h : Inv st) :
    Inv (dir_append st buf).1 ∧ SessionFrame st (dir_append st buf).1 ∧
    (dir_append st buf).1.analog_buff = st.analog_buff ∧
    (dir_append st buf).1.logic_buff.fill_size = st.logic_buff.fill_size ∧
    (dir_append st buf).1.logic_buff.samples = st.logic_buff.samples ∧
    (dir_append st buf).1.logic_buff.unit_size = st.logic_buff.unit_size ∧
    (dir_append st buf).1.logic_buff.alloc_size = st.logic_buff.alloc_size := by
  by_cases h0 : buf.length = 0
  · simp only [dir_append, if_pos h0]
    exact ⟨h, SessionFrame.refl st, by trivial, by trivial, by trivial, by trivial, by trivial⟩
  · by_cases hio : st.io.headD true = true
    · simp only [dir_append, if_neg h0, hio, if_true]
      refine ⟨⟨h.alen, h.abuf, ?_, ?_, ?_, ?_, ?_⟩,
        ⟨by trivial, by trivial, by trivial, by trivial, by trivial⟩,
        by trivial, by trivial, by trivial, by trivial, by trivial⟩
      · intro c hc
        rcases List.mem_append.mp hc with h' | h'
        · exact h.cpos c h'
        · simp only [List.mem_singleton] at h'
          subst h'
          simpa [chunkByteLen] using Nat.pos_of_ne_zero h0
      · dsimp only
        rw [logicNums_append_logic]
        intro n hn
        rcases List.mem_append.mp hn with h' | h'
        · exact Nat.lt_succ_of_lt (h.lbound n h')
        · simp only [List.mem_singleton] at h'
          omega
      · dsimp only
        rw [logicNums_append_logic]
        exact pairwise_lt_append_singleton h.lsorted h.lbound
      · intro idx hidx
        dsimp only
        rw [analogNums_append_logic]
        exact h.abound idx hidx
      · intro nr
        dsimp only
        rw [analogNums_append_logic]
        exact h.asorted nr
    · simp only [Bool.not_eq_true] at hio
      simp only [dir_append, if_neg h0, hio, Bool.false_eq_true, if_false]
      exact ⟨⟨h.alen, h.abuf, h.cpos, h.lbound, h.lsorted, h.abound, h.asorted⟩,
        ⟨by trivial, by trivial, by trivial, by trivial, by trivial⟩,
        by trivial, by trivial, by trivial, by trivial, by trivial⟩

/-- A successful analog chunk write: the file is recorded and the slot's
chunk number advances. -/
theorem dir_append_analog_ok (st : OutContext) (values : List Nat) (idx : Nat)
    (hio : st.io.headD true = true) (hv : values.length ≠ 0) :
    dir_append_analog st values (st.first_analog_index + idx) =
      ({ st with
          io := st.io.tail
          chunks := st.chunks ++ [Chunk.analog (st.first_analog_index + idx)
            (st.analog_buff.getD idx AnalogBuff.empty).next_chunk_num values]
          analog_buff := st.analog_buff.set idx
            { st.analog_buff.getD idx AnalogBuff.empty with
              next_chunk_num :=
                (st.analog_buff.getD idx AnalogBuff.empty).next_chunk_num + 1 } },
        none) := by
  rw [List.headD_eq_head?] at hio
  simp [dir_append_analog, Nat.add_sub_cancel_left, hio, hv]

/-- A failed analog chunk write: no file is recorded but the slot's chunk
number still advances (the increment in the C code is unconditional). -/
theorem dir_append_analog_fail (st : OutContext) (values : List Nat) (idx : Nat)
    (hio : st.io.headD true = false) :
    dir_append_analog st values (st.first_analog_index + idx) =
      ({ st with
          io := st.io.tail
          analog_buff := st.analog_buff.set idx
            { st.analog_buff.getD idx AnalogBuff.empty with
              next_chunk_num :=
                (st.analog_buff.getD idx AnalogBuff.empty).next_chunk_num + 1 } },
        some SrErr.err) := by
  rw [List.headD_eq_head?] at hio
  simp [dir_append_analog, Nat.add_sub_cancel_left, hio]

/-- dir_append_analog preserves the session invariant under any oracle when
called for a valid buffer slot with a non-empty value array; its only state
effects are io, possibly a new non-empty chunk, and the unconditional
increment of that slot's chunk number. -/
theorem dir_append_analog_inv (st : OutContext) (values : List Nat) (idx : Nat)
    (h : Inv st) (hidx : idx < st.analog_ch_count) (hv : values.length ≠ 0) :
    Inv (dir_append_analog st values (st.first_analog_index + idx)).1 ∧
    SessionFrame st (dir_append_analog st values (st.first_analog_index + idx)).1 ∧
    (dir_append_analog st values (st.first_analog_index + idx)).1.logic_buff =
      st.logic_buff ∧
    (dir_append_analog st values (st.first_analog_index + idx)).1.analog_buff =
      st.analog_buff.set idx
        { st.analog_buff.getD idx AnalogBuff.empty with
          next_chunk_num := (st.analog_buff.getD idx AnalogBuff.empty).next_chunk_num + 1 } := by
  have hlen_idx : idx < st.analog_buff.length := by rw [h.alen]; exact hidx
  have hmem_old : st.analog_buff.getD idx AnalogBuff.empty ∈ st.analog_buff :=
    getD_mem hlen_idx _
  have halen' : (st.analog_buff.set idx
      { st.analog_buff.getD idx AnalogBuff.empty with
        next_chunk_num := (st.analog_buff.getD idx AnalogBuff.empty).next_chunk_num + 1
      }).length = st.analog_ch_count := by
    rw [List.length_set]; exact h.alen
  have habuf' : ∀ b ∈ st.analog_buff.set idx
      { st.analog_buff.getD idx AnalogBuff.empty with
        next_chunk_num := (st.analog_buff.getD idx AnalogBuff.empty).next_chunk_num + 1 },
      b.samples.length = b.fill_size ∧ b.fill_size ≤ b.alloc_size ∧ 0 < b.alloc_size := by
    intro b hb
    rcases List.mem_or_eq_of_mem_set hb with h' | h'
    · exact h.abuf b h'
    · subst h'
      exact h.abuf (st.analog_buff.getD idx AnalogBuff.empty) hmem_old
  have hcpos' : ∀ c ∈ st.chunks ++ [Chunk.analog (st.first_analog_index + idx)
      (st.analog_buff.getD idx AnalogBuff.empty).next_chunk_num values],
      0 < chunkByteLen c := by
    intro c hc
    rcases List.mem_append.mp hc with h' | h'
    · exact h.cpos c h'
    · simp only [List.mem_singleton] at h'
      subst h'
      simp only [chunkByteLen, sizeof_float]
      omega
  have hlbound' : ∀ n ∈ logicNums (st.chunks ++ [Chunk.analog (st.first_analog_index + idx)
      (st.analog_buff.getD idx AnalogBuff.empty).next_chunk_num values]),
      n < st.logic_buff.next_chunk_num := by
    rw [logicNums_append_analog]
    exact h.lbound
  have hlsorted' : List.Pairwise (· < ·) (logicNums (st.chunks ++
      [Chunk.analog (st.first_analog_index + idx)
        (st.analog_buff.getD idx AnalogBuff.empty).next_chunk_num values])) := by
    rw [logicNums_append_analog]
    exact h.lsorted
  have habound' : ∀ idx', idx' < st.analog_ch_count →
      ∀ n ∈ analogNums (st.first_analog_index + idx')
          (st.chunks ++ [Chunk.analog (st.first_analog_index + idx)
            (st.analog_buff.getD idx AnalogBuff.empty).next_chunk_num values]),
        n < ((st.analog_buff.set idx
          { st.analog_buff.getD idx AnalogBuff.empty with
            next_chunk_num := (st.analog_buff.getD idx AnalogBuff.empty).next_chunk_num + 1
          }).getD idx' AnalogBuff.empty).next_chunk_num := by
    intro idx' hidx' n hn
    rw [analogNums_append_analog] at hn
    by_cases heq : idx' = idx
    · subst heq
      rw [getD_set_self hlen_idx]
      rw [if_pos rfl] at hn
      rcases List.mem_append.mp hn with h' | h'
      · exact Nat.lt_succ_of_lt (h.abound idx' hidx' n h')
      · simp only [List.mem_singleton] at h'
        subst h'
        show (st.analog_buff.getD idx' AnalogBuff.empty).next_chunk_num <
          (st.analog_buff.getD idx' AnalogBuff.empty).next_chunk_num + 1
        omega
    · rw [getD_set_ne (Ne.symm heq)]
      rw [if_neg (by omega : ¬ st.first_analog_index + idx = st.first_analog_index + idx'),
        List.append_nil] at hn
      exact h.abound idx' hidx' n hn
  have hasorted' : ∀ nr, List.Pairwise (· < ·)
      (analogNums nr (st.chunks ++ [Chunk.analog (st.first_analog_index + idx)
        (st.analog_buff.getD idx AnalogBuff.empty).next_chunk_num values])) := by
    intro nr
    rw [analogNums_append_analog]
    by_cases heq : st.first_analog_index + idx = nr
    · rw [if_pos heq]
      refine pairwise_lt_append_singleton (h.asorted nr) ?_
      intro y hy
      subst heq
      exact h.abound idx hidx y hy
    · rw [if_neg heq, List.append_nil]
      exact h.asorted nr
  have habound_noc : ∀ idx', idx' < st.analog_ch_count →
      ∀ n ∈ analogNums (st.first_analog_index + idx') st.chunks,
        n < ((st.analog_buff.set idx
          { st.analog_buff.getD idx AnalogBuff.empty with
            next_chunk_num := (st.analog_buff.getD idx AnalogBuff.empty).next_chunk_num + 1
          }).getD idx' AnalogBuff.empty).next_chunk_num := by
    intro idx' hidx' n hn
    by_cases heq : idx' = idx
    · subst heq
      rw [getD_set_self hlen_idx]
      exact Nat.lt_succ_of_lt (h.abound idx' hidx' n hn)
    · rw [getD_set_ne (Ne.symm heq)]
      exact h.abound idx' hidx' n hn
  by_cases hio : st.io.headD true = true
  · rw [dir_append_analog_ok st values idx hio hv]
    exact ⟨⟨halen', habuf', hcpos', hlbound', hlsorted', habound', hasorted'⟩,
      ⟨rfl, rfl, rfl, rfl, rfl⟩, rfl, rfl⟩
  · have hio' : st.io.headD true = false := by
      cases hh : st.io.headD true
      · rfl
      · exact absurd hh hio
    rw [dir_append_analog_fail st values idx hio']
    exact ⟨⟨halen', habuf', h.cpos, h.lbound, h.lsorted, habound_noc, h.asorted⟩,
      ⟨rfl, rfl, rfl, rfl, rfl⟩, rfl, rfl⟩

theorem dir_append_inv2 (st : OutContext) (buf : List Nat) (st2 : OutContext)
    (r : Option SrErr) (heq : dir_append st buf = (st2, r)) (h : Inv st) :
    Inv st2 ∧ SessionFrame st st2 ∧ st2.analog_buff = st.analog_buff ∧
    st2.logic_buff.fill_size = st.logic_buff.fill_size ∧
    st2.logic_buff.samples = st.logic_buff.samples ∧
    st2.logic_buff.unit_size = st.logic_buff.unit_size ∧
    st2.logic_buff.alloc_size = st.logic_buff.alloc_size := by
  have hres := dir_append_inv st buf h
  rw [heq] at hres
  exact hres

theorem dir_append_analog_inv2 (st : OutContext) (values : List Nat) (idx : Nat)
    (st2 : OutContext) (r : Option SrErr)
    (heq : dir_append_analog st values (st.first_analog_index + idx) = (st2, r))
    (h : Inv st) (hidx : idx < st.analog_ch_count) (hv : values.length ≠ 0) :
    Inv st2 ∧ SessionFrame st st2 ∧ st2.logic_buff = st.logic_buff ∧
    st2.analog_buff = st.analog_buff.set idx
      { st.analog_buff.getD idx AnalogBuff.empty with
        next_chunk_num := (st.analog_buff.getD idx AnalogBuff.empty).next_chunk_num + 1 } := by
  have hres := dir_append_analog_inv st values idx h hidx hv
  rw [heq] at hres
  exact hres

/-- The logic queue loop preserves the session invariant under any oracle and
never touches the analog side. -/
theorem queue_loop_inv (fuel : Nat) : ∀ (st : OutContext) (data : List Nat) (send : Nat),
    Inv st →
    Inv (queue_loop fuel st data send).1 ∧
    SessionFrame st (queue_loop fuel st data send).1 ∧
    (queue_loop fuel st data send).1.analog_buff = st.analog_buff := by
  induction fuel with
  | zero =>
    intro st data send h
    exact ⟨h, SessionFrame.refl st, rfl⟩
  | succ fuel ih =>
    intro st data send h
    by_cases hsend : send = 0
    · simp only [queue_loop, if_pos hsend]
      exact ⟨h, SessionFrame.refl st, by trivial⟩
    · simp only [queue_loop, if_neg hsend]
      by_cases hrem : st.logic_buff.alloc_size - st.logic_buff.fill_size ≠ 0
      · rw [if_pos hrem]
        have h1 : Inv { st with logic_buff := { st.logic_buff with
            fill_size := st.logic_buff.fill_size +
              min send (st.logic_buff.alloc_size - st.logic_buff.fill_size)
            samples := st.logic_buff.samples ++ data.take
              (min send (st.logic_buff.alloc_size - st.logic_buff.fill_size) *
                st.logic_buff.unit_size) } } :=
          ⟨h.alen, h.abuf, h.cpos, h.lbound, h.lsorted, h.abound, h.asorted⟩
        split
        · -- samples remain and the buffer filled up: flush mid-loop
          split
          case _ st2 e heq =>
            obtain ⟨hi, hf, hab, _, _, _, _⟩ := dir_append_inv2 _ _ _ _ heq h1
            obtain ⟨a1, a2, a3, a4, a5⟩ := hf
            exact ⟨hi, ⟨a1, a2, a3, a4, a5⟩, hab⟩
          case _ st2 heq =>
            obtain ⟨hi, hf, hab, _, _, _, _⟩ := dir_append_inv2 _ _ _ _ heq h1
            obtain ⟨a1, a2, a3, a4, a5⟩ := hf
            have h3 : Inv { st2 with logic_buff := { st2.logic_buff with
                fill_size := 0, samples := [] } } :=
              ⟨hi.alen, hi.abuf, hi.cpos, hi.lbound, hi.lsorted, hi.abound, hi.asorted⟩
            obtain ⟨gi, gf, gab⟩ := ih _ _ _ h3
            obtain ⟨b1, b2, b3, b4, b5⟩ := gf
            exact ⟨gi, ⟨b1.trans a1, b2.trans a2, b3.trans a3, b4.trans a4, b5.trans a5⟩,
              gab.trans hab⟩
        · -- no flush: continue with the copied state
          obtain ⟨gi, gf, gab⟩ := ih _ _ _ h1
          obtain ⟨b1, b2, b3, b4, b5⟩ := gf
          exact ⟨gi, ⟨b1, b2, b3, b4, b5⟩, gab⟩
      · rw [if_neg hrem]
        split
        case _ st2 e heq =>
          obtain ⟨hi, hf, hab, _, _, _, _⟩ := dir_append_inv2 _ _ _ _ heq h
          exact ⟨hi, hf, hab⟩
        case _ st2 heq =>
          obtain ⟨hi, hf, hab, _, _, _, _⟩ := dir_append_inv2 _ _ _ _ heq h
          obtain ⟨a1, a2, a3, a4, a5⟩ := hf
          have h3 : Inv { st2 with logic_buff := { st2.logic_buff with
              fill_size := 0, samples := [] } } :=
            ⟨hi.alen, hi.abuf, hi.cpos, hi.lbound, hi.lsorted, hi.abound, hi.asorted⟩
          obtain ⟨gi, gf, gab⟩ := ih _ _ _ h3
          obtain ⟨b1, b2, b3, b4, b5⟩ := gf
          exact ⟨gi, ⟨b1.trans a1, b2.trans a2, b3.trans a3, b4.trans a4, b5.trans a5⟩,
            gab.trans hab⟩

/-- dir_append_queue preserves the session invariant under any oracle. -/
theorem dir_append_queue_inv (st : OutContext) (buf : List Nat) (unitsize : Nat)
    (flush : Bool) (h : Inv st) :
    Inv (dir_append_queue st buf unitsize flush).1 ∧
    SessionFrame st (dir_append_queue st buf unitsize flush).1 ∧
    (dir_append_queue st buf unitsize flush).1.analog_buff = st.analog_buff := by
  rw [dir_append_queue]
  split
  · exact ⟨h, SessionFrame.refl st, rfl⟩
  · set send := (if st.logic_buff.unit_size = 0 then 0
      else buf.length / st.logic_buff.unit_size) with hsend
    dsimp only
    split
    case _ st1 e heq =>
      have hres := queue_loop_inv (2 * send + 2) st buf send h
      rw [heq] at hres
      exact hres
    case _ st1 heq =>
      have hres := queue_loop_inv (2 * send + 2) st buf send h
      rw [heq] at hres
      obtain ⟨hi, hf, hab⟩ := hres
      obtain ⟨a1, a2, a3, a4, a5⟩ := hf
      split
      · split
        case _ st2 e heq2 =>
          obtain ⟨gi, gf, gab, _, _, _, _⟩ := dir_append_inv2 _ _ _ _ heq2 hi
          obtain ⟨b1, b2, b3, b4, b5⟩ := gf
          exact ⟨gi, ⟨b1.trans a1, b2.trans a2, b3.trans a3, b4.trans a4, b5.trans a5⟩,
            gab.trans hab⟩
        case _ st2 heq2 =>
          obtain ⟨gi, gf, gab, _, _, _, _⟩ := dir_append_inv2 _ _ _ _ heq2 hi
          obtain ⟨b1, b2, b3, b4, b5⟩ := gf
          exact ⟨⟨gi.alen, gi.abuf, gi.cpos, gi.lbound, gi.lsorted, gi.abound, gi.asorted⟩,
            ⟨b1.trans a1, b2.trans a2, b3.trans a3, b4.trans a4, b5.trans a5⟩,
            gab.trans hab⟩
      · exact ⟨hi, ⟨a1, a2, a3, a4, a5⟩, hab⟩

/-- Copying samples into an analog buffer slot preserves the invariant. -/
theorem analog_copy_inv (st : OutContext) (idx : Nat) (data : List Nat) (copy : Nat)
    (h : Inv st) (hidx : idx < st.analog_ch_count) (hcle : copy ≤ data.length)
    (hrem : copy ≤ (st.analog_buff.getD idx AnalogBuff.empty).alloc_size -
      (st.analog_buff.getD idx AnalogBuff.empty).fill_size) :
    Inv { st with analog_buff := (st.analog_buff.set idx
      { st.analog_buff.getD idx AnalogBuff.empty with
        fill_size := (st.analog_buff.getD idx AnalogBuff.empty).fill_size + copy
        samples := (st.analog_buff.getD idx AnalogBuff.empty).samples ++ data.take copy }) } := by
  have hlen_idx : idx < st.analog_buff.length := by rw [h.alen]; exact hidx
  have hold := h.abuf _ (getD_mem hlen_idx AnalogBuff.empty)
  refine ⟨?_, ?_, h.cpos, h.lbound, h.lsorted, ?_, h.asorted⟩
  · show (st.analog_buff.set idx _).length = st.analog_ch_count
    rw [List.length_set]
    exact h.alen
  · intro b hb
    rcases List.mem_or_eq_of_mem_set hb with h' | h'
    · exact h.abuf b h'
    · subst h'
      refine ⟨?_, ?_, hold.2.2⟩
      · show ((st.analog_buff.getD idx AnalogBuff.empty).samples ++ data.take copy).length =
          (st.analog_buff.getD idx AnalogBuff.empty).fill_size + copy
        rw [List.length_append, List.length_take, hold.1]
        omega
      · show (st.analog_buff.getD idx AnalogBuff.empty).fill_size + copy ≤
          (st.analog_buff.getD idx AnalogBuff.empty).alloc_size
        have := hold.2.1
        omega
  · intro idx' hidx' n hn
    by_cases heq : idx' = idx
    · subst heq
      show n < ((st.analog_buff.set idx' _).getD idx' AnalogBuff.empty).next_chunk_num
      rw [getD_set_self hlen_idx]
      exact h.abound idx' hidx' n hn
    · show n < ((st.analog_buff.set idx _).getD idx' AnalogBuff.empty).next_chunk_num
      rw [getD_set_ne (Ne.symm heq)]
      exact h.abound idx' hidx' n hn

/-- Resetting an analog buffer slot after a flush preserves the invariant. -/
theorem analog_reset_inv (st : OutContext) (idx : Nat) (h : Inv st)
    (hidx : idx < st.analog_ch_count) :
    Inv { st with analog_buff := (st.analog_buff.set idx
      { st.analog_buff.getD idx AnalogBuff.empty with
        fill_size := 0, samples := ([] : List Nat) }) } := by
  have hlen_idx : idx < st.analog_buff.length := by rw [h.alen]; exact hidx
  have hold := h.abuf _ (getD_mem hlen_idx AnalogBuff.empty)
  refine ⟨?_, ?_, h.cpos, h.lbound, h.lsorted, ?_, h.asorted⟩
  · show (st.analog_buff.set idx _).length = st.analog_ch_count
    rw [List.length_set]
    exact h.alen
  · intro b hb
    rcases List.mem_or_eq_of_mem_set hb with h' | h'
    · exact h.abuf b h'
    · subst h'
      exact ⟨rfl, Nat.zero_le _, hold.2.2⟩
  · intro idx' hidx' n hn
    by_cases heq : idx' = idx
    · subst heq
      show n < ((st.analog_buff.set idx' _).getD idx' AnalogBuff.empty).next_chunk_num
      rw [getD_set_self hlen_idx]
      exact h.abound idx' hidx' n hn
    · show n < ((st.analog_buff.set idx _).getD idx' AnalogBuff.empty).next_chunk_num
      rw [getD_set_ne (Ne.symm heq)]
      exact h.abound idx' hidx' n hn

/-- The analog copy/flush loop preserves the session invariant under any
oracle and never touches the logic side. -/
theorem analog_loop_inv (fuel : Nat) : ∀ (st : OutContext) (idx nr : Nat) (data : List Nat)
    (send : Nat), Inv st → idx < st.analog_ch_count →
    nr = st.first_analog_index + idx → send ≤ data.length →
    Inv (analog_loop fuel st idx nr data send).1 ∧
    SessionFrame st (analog_loop fuel st idx nr data send).1 ∧
    (analog_loop fuel st idx nr data send).1.logic_buff = st.logic_buff := by
  induction fuel with
  | zero =>
    intro st idx nr data send h hidx hnr hdata
    exact ⟨h, SessionFrame.refl st, rfl⟩
  | succ fuel ih =>
    intro st idx nr data send h hidx hnr hdata
    subst hnr
    have hlen_idx : idx < st.analog_buff.length := by rw [h.alen]; exact hidx
    have hold := h.abuf _ (getD_mem hlen_idx AnalogBuff.empty)
    by_cases hsend : send = 0
    · simp only [analog_loop, if_pos hsend]
      exact ⟨h, SessionFrame.refl st, by trivial⟩
    · simp only [analog_loop, if_neg hsend]
      by_cases hrem : (st.analog_buff.getD idx AnalogBuff.empty).alloc_size -
          (st.analog_buff.getD idx AnalogBuff.empty).fill_size ≠ 0
      · rw [if_pos hrem]
        have hcopy1 : 1 ≤ min send ((st.analog_buff.getD idx AnalogBuff.empty).alloc_size -
            (st.analog_buff.getD idx AnalogBuff.empty).fill_size) := by omega
        have hcle : min send ((st.analog_buff.getD idx AnalogBuff.empty).alloc_size -
            (st.analog_buff.getD idx AnalogBuff.empty).fill_size) ≤ data.length := by omega
        have h1 := analog_copy_inv st idx data
          (min send ((st.analog_buff.getD idx AnalogBuff.empty).alloc_size -
            (st.analog_buff.getD idx AnalogBuff.empty).fill_size)) h hidx hcle (by omega)
        split
        · -- samples remain and the slot filled up: flush mid-loop
          split
          case _ st2 e heq =>
            have hv : ((st.analog_buff.getD idx AnalogBuff.empty).samples ++
                data.take (min send ((st.analog_buff.getD idx AnalogBuff.empty).alloc_size -
                  (st.analog_buff.getD idx AnalogBuff.empty).fill_size))).length ≠ 0 := by
              rw [List.length_append, List.length_take]
              omega
            obtain ⟨hi2, hf2, _, _⟩ := dir_append_analog_inv2 _ _ idx _ _ heq h1 hidx hv
            obtain ⟨a1, a2, a3, a4, a5⟩ := hf2
            exact ⟨hi2, ⟨a1, a2, a3, a4, a5⟩, by rw [(dir_append_analog_inv2 _ _ idx _ _
              heq h1 hidx hv).2.2.1]⟩
          case _ st2 heq =>
            have hv : ((st.analog_buff.getD idx AnalogBuff.empty).samples ++
                data.take (min send ((st.analog_buff.getD idx AnalogBuff.empty).alloc_size -
                  (st.analog_buff.getD idx AnalogBuff.empty).fill_size))).length ≠ 0 := by
              rw [List.length_append, List.length_take]
              omega
            obtain ⟨hi2, hf2, hlb2, _⟩ := dir_append_analog_inv2 _ _ idx _ _ heq h1 hidx hv
            obtain ⟨a1, a2, a3, a4, a5⟩ := hf2
            have hidx2 : idx < st2.analog_ch_count := by rw [a3]; exact hidx
            have h3 := analog_reset_inv st2 idx hi2 hidx2
            have hfirst2 : st2.first_analog_index = st.first_analog_index := a4
            obtain ⟨gi, gf, glb⟩ := ih _ idx (st.first_analog_index + idx)
              (data.drop (send ⊓ ((st.analog_buff.getD idx AnalogBuff.empty).alloc_size -
                (st.analog_buff.getD idx AnalogBuff.empty).fill_size)))
              (send - (send ⊓ ((st.analog_buff.getD idx AnalogBuff.empty).alloc_size -
                (st.analog_buff.getD idx AnalogBuff.empty).fill_size))) h3
              (by show idx < st2.analog_ch_count; exact hidx2)
              (by show st.first_analog_index + idx = st2.first_analog_index + idx
                  rw [hfirst2])
              (by rw [List.length_drop]; omega)
            obtain ⟨b1, b2, b3, b4, b5⟩ := gf
            refine ⟨gi, ⟨b1.trans a1, b2.trans a2, b3.trans a3, b4.trans a4, b5.trans a5⟩, ?_⟩
            rw [glb]
            exact hlb2
        · -- no flush: continue with the copied state
          obtain ⟨gi, gf, glb⟩ := ih _ idx (st.first_analog_index + idx)
            (data.drop (send ⊓ ((st.analog_buff.getD idx AnalogBuff.empty).alloc_size -
                (st.analog_buff.getD idx AnalogBuff.empty).fill_size)))
            (send - (send ⊓ ((st.analog_buff.getD idx AnalogBuff.empty).alloc_size -
                (st.analog_buff.getD idx AnalogBuff.empty).fill_size))) h1 hidx rfl
            (by rw [List.length_drop]; omega)
          obtain ⟨b1, b2, b3, b4, b5⟩ := gf
          exact ⟨gi, ⟨b1, b2, b3, b4, b5⟩, glb⟩
      · rw [if_neg hrem]
        have hv : (st.analog_buff.getD idx AnalogBuff.empty).samples.length ≠ 0 := by
          rw [hold.1]
          have := hold.2.1
          have := hold.2.2
          omega
        split
        case _ st2 e heq =>
          exact dir_append_analog_inv2 _ _ idx _ _ heq h hidx hv |>.imp_right
            (fun x => ⟨x.1, x.2.1⟩) |>.imp id id
        case _ st2 heq =>
          obtain ⟨hi2, hf2, hlb2, _⟩ := dir_append_analog_inv2 _ _ idx _ _ heq h hidx hv
          obtain ⟨a1, a2, a3, a4, a5⟩ := hf2
          have hidx2 : idx < st2.analog_ch_count := by rw [a3]; exact hidx
          have h3 := analog_reset_inv st2 idx hi2 hidx2
          have hfirst2 : st2.first_analog_index = st.first_analog_index := a4
          obtain ⟨gi, gf, glb⟩ := ih _ idx (st.first_analog_index + idx) data send h3
            (by show idx < st2.analog_ch_count; exact hidx2)
            (by show st.first_analog_index + idx = st2.first_analog_index + idx
                rw [hfirst2])
            hdata
          obtain ⟨b1, b2, b3, b4, b5⟩ := gf
          refine ⟨gi, ⟨b1.trans a1, b2.trans a2, b3.trans a3, b4.trans a4, b5.trans a5⟩, ?_⟩
          rw [glb]
          exact hlb2

/-- The DF_END per-channel flush loop preserves the session invariant under
any oracle and never touches the logic side. -/
theorem analog_end_flush_inv : ∀ (k : Nat) (st : OutContext) (n idx : Nat),
    n - idx ≤ k → Inv st → n = st.analog_ch_count →
    Inv (analog_end_flush st n idx).1 ∧
    SessionFrame st (analog_end_flush st n idx).1 ∧
    (analog_end_flush st n idx).1.logic_buff = st.logic_buff := by
  intro k
  induction k with
  | zero =>
    intro st n idx hk h hn
    rw [analog_end_flush_unfold, if_neg (by omega : ¬ idx < n)]
    exact ⟨h, SessionFrame.refl st, rfl⟩
  | succ k ih =>
    intro st n idx hk h hn
    rw [analog_end_flush_unfold]
    by_cases hlt : idx < n
    · rw [if_pos hlt]
      by_cases hfz : (st.analog_buff.getD idx AnalogBuff.empty).fill_size = 0
      · rw [if_pos hfz]
        exact ih st n (idx + 1) (by omega) h hn
      · rw [if_neg hfz]
        have hidx : idx < st.analog_ch_count := by rw [← hn]; exact hlt
        have hlen_idx : idx < st.analog_buff.length := by rw [h.alen]; exact hidx
        have hold := h.abuf _ (getD_mem hlen_idx AnalogBuff.empty)
        have hv : (st.analog_buff.getD idx AnalogBuff.empty).samples.length ≠ 0 := by
          rw [hold.1]; exact hfz
        split
        case _ st1 e heq =>
          obtain ⟨hi, hf, hlb, _⟩ := dir_append_analog_inv2 _ _ idx _ _ heq h hidx hv
          exact ⟨hi, hf, hlb⟩
        case _ st1 heq =>
          obtain ⟨hi, hf, hlb, _⟩ := dir_append_analog_inv2 _ _ idx _ _ heq h hidx hv
          obtain ⟨a1, a2, a3, a4, a5⟩ := hf
          have hidx1 : idx < st1.analog_ch_count := by rw [a3]; exact hidx
          have h3 := analog_reset_inv st1 idx hi hidx1
          obtain ⟨gi, gf, glb⟩ := ih _ n (idx + 1) (by omega) h3
            (by show n = st1.analog_ch_count
                rw [a3, ← hn])
          obtain ⟨b1, b2, b3, b4, b5⟩ := gf
          refine ⟨gi, ⟨b1.trans a1, b2.trans a2, b3.trans a3, b4.trans a4, b5.trans a5⟩, ?_⟩
          rw [glb]
          exact hlb
    · rw [if_neg hlt]
      exact ⟨h, SessionFrame.refl st, rfl⟩

/-- dir_append_analog_queue preserves the session invariant under any oracle
and never touches the logic side. -/
theorem dir_append_analog_queue_inv (st : OutContext) (analog : Option AnalogEvent)
    (flush : Bool) (h : Inv st) :
    Inv (dir_append_analog_queue st analog flush).1 ∧
    SessionFrame st (dir_append_analog_queue st analog flush).1 ∧
    (dir_append_analog_queue st analog flush).1.logic_buff = st.logic_buff := by
  cases analog with
  | none =>
    simp only [dir_append_analog_queue]
    split
    · exact analog_end_flush_inv st.analog_ch_count st st.analog_ch_count 0 (by omega) h rfl
    · exact ⟨h, SessionFrame.refl st, rfl⟩
  | some ev =>
    simp only [dir_append_analog_queue]
    split
    · exact ⟨h, SessionFrame.refl st, rfl⟩
    · split
      · exact ⟨h, SessionFrame.refl st, rfl⟩
      · rename_i hch hidx_ne
        by_cases halloc : (!ev.alloc_ok) = true
        · rw [if_pos halloc]
          exact ⟨h, SessionFrame.refl st, rfl⟩
        · rw [if_neg halloc]
          rcases hconv : ev.conv_ret with _ | e
          · dsimp only
            have hidx : (st.analog_index_map.take st.analog_ch_count).findIdx
                (fun x => x = ev.channels.headD 0) < st.analog_ch_count := by
              have hle := @List.findIdx_le_length _
                (fun x => decide (x = ev.channels.headD 0))
                (st.analog_index_map.take st.analog_ch_count)
              have hlen : (st.analog_index_map.take st.analog_ch_count).length ≤
                  st.analog_ch_count := by
                rw [List.length_take]
                omega
              omega
            have hvlen : (ev.values.take ev.num_samples ++
                List.replicate (ev.num_samples - ev.values.length) 0).length =
                ev.num_samples := by
              rw [List.length_append, List.length_take, List.length_replicate]
              omega
            have hloop := analog_loop_inv (2 * ev.num_samples + 2) st
              ((st.analog_index_map.take st.analog_ch_count).findIdx
                (fun x => x = ev.channels.headD 0))
              (st.first_analog_index +
                (st.analog_index_map.take st.analog_ch_count).findIdx
                  (fun x => x = ev.channels.headD 0))
              (ev.values.take ev.num_samples ++
                List.replicate (ev.num_samples - ev.values.length) 0)
              ev.num_samples h hidx rfl hvlen.ge
            split
            case _ st1 e heq2 =>
              rw [heq2] at hloop
              exact hloop
            case _ st1 heq2 =>
              rw [heq2] at hloop
              obtain ⟨hi, hf, hlb⟩ := hloop
              obtain ⟨a1, a2, a3, a4, a5⟩ := hf
              have hidx1 : (st.analog_index_map.take st.analog_ch_count).findIdx
                  (fun x => x = ev.channels.headD 0) < st1.analog_ch_count := by
                rw [a3]
                exact hidx
              split
              · rename_i hfl
                have hlen_idx1 : (st.analog_index_map.take st.analog_ch_count).findIdx
                    (fun x => x = ev.channels.headD 0) < st1.analog_buff.length := by
                  rw [hi.alen]
                  exact hidx1
                have hold1 := hi.abuf _ (getD_mem hlen_idx1 AnalogBuff.empty)
                have hv1 : (st1.analog_buff.getD
                    ((st.analog_index_map.take st.analog_ch_count).findIdx
                      (fun x => x = ev.channels.headD 0)) AnalogBuff.empty).samples.length
                    ≠ 0 := by
                  rw [hold1.1]
                  exact hfl.2
                have hfirst1 : st1.first_analog_index = st.first_analog_index := a4
                split
                case _ st2 e heq3 =>
                  rw [← hfirst1] at heq3
                  obtain ⟨gi, gf, glb, _⟩ :=
                    dir_append_analog_inv2 _ _ _ _ _ heq3 hi hidx1 hv1
                  obtain ⟨b1, b2, b3, b4, b5⟩ := gf
                  refine ⟨gi, ⟨b1.trans a1, b2.trans a2, b3.trans a3, b4.trans a4,
                    b5.trans a5⟩, ?_⟩
                  rw [glb]
                  exact hlb
                case _ st2 heq3 =>
                  rw [← hfirst1] at heq3
                  obtain ⟨gi, gf, glb, _⟩ :=
                    dir_append_analog_inv2 _ _ _ _ _ heq3 hi hidx1 hv1
                  obtain ⟨b1, b2, b3, b4, b5⟩ := gf
                  have hidx2 : (st.analog_index_map.take st.analog_ch_count).findIdx
                      (fun x => x = ev.channels.headD 0) < st2.analog_ch_count := by
                    rw [b3]
                    exact hidx1
                  have h4 := analog_reset_inv st2 _ gi hidx2
                  refine ⟨⟨h4.alen, h4.abuf, h4.cpos, h4.lbound, h4.lsorted, h4.abound,
                    h4.asorted⟩,
                    ⟨b1.trans a1, b2.trans a2, b3.trans a3, b4.trans a4, b5.trans a5⟩, ?_⟩
                  show st2.logic_buff = st.logic_buff
                  rw [glb]
                  exact hlb
              · exact ⟨hi, ⟨a1, a2, a3, a4, a5⟩, hlb⟩
          · dsimp only
            exact ⟨h, SessionFrame.refl st, rfl⟩

/-- Whole-session invariant: the append invariant plus the one-shot directory
creation bookkeeping — dir_create has run exactly once when the flag is set
and never before the first sample block, and before creation no chunk file
exists. -/
def FullInv (st : OutContext) : Prop :=
  Inv st ∧ st.dir_create_count = (if st.dir_created = true then 1 else 0) ∧
  (st.dir_created = false → st.chunks = [])

theorem dir_create_inv (chs : List SrChannel) (drv : Option Nat) (st : OutContext)
    (hchunks : st.chunks = []) : Inv (dir_create chs drv st) := by
  have hch : (dir_create chs drv st).chunks = [] := hchunks
  have habuf : ∀ b ∈ (dir_create chs drv st).analog_buff,
      b.samples.length = b.fill_size ∧ b.fill_size ≤ b.alloc_size ∧ 0 < b.alloc_size := by
    intro b hb
    simp only [dir_create] at hb
    rw [List.eq_of_mem_replicate hb]
    refine ⟨rfl, Nat.zero_le _, ?_⟩
    show 0 < SR_CHUNK_SIZE / sizeof_float
    decide
  refine ⟨?_, habuf, ?_, ?_, ?_, ?_, ?_⟩
  · simp [dir_create]
  · rw [hch]
    intro c hc
    cases hc
  · rw [hch]
    intro n hn
    simp [logicNums] at hn
  · rw [hch]
    simp [logicNums]
  · intro idx hidx n hn
    rw [hch] at hn
    simp [analogNums] at hn
  · intro nr
    rw [hch]
    simp [analogNums]

theorem receive_inv (chs : List SrChannel) (drv : Option Nat) (st : OutContext) (p : Packet)
    (h : FullInv st) : FullInv (receive chs drv st p).1 := by
  obtain ⟨hi, hdc, hpre⟩ := h
  cases p with
  | df_meta config =>
    exact ⟨⟨hi.alen, hi.abuf, hi.cpos, hi.lbound, hi.lsorted, hi.abound, hi.asorted⟩,
      hdc, hpre⟩
  | df_logic data unitsize =>
    simp only [receive]
    by_cases hc : st.dir_created = true
    · rw [if_neg (by simp [hc])]
      obtain ⟨gi, gf, _⟩ := dir_append_queue_inv st data unitsize false hi
      refine ⟨gi, by rw [gf.2.1, gf.1]; exact hdc, ?_⟩
      intro hf
      rw [gf.1, hc] at hf
      cases hf
    · have hcf : st.dir_created = false := by
        revert hc
        cases st.dir_created <;> simp
      rw [if_pos (by simp [hcf])]
      have hinvc := dir_create_inv chs drv st (hpre hcf)
      have hinv1 : Inv { dir_create chs drv st with dir_created := true } :=
        ⟨hinvc.alen, hinvc.abuf, hinvc.cpos, hinvc.lbound, hinvc.lsorted,
          hinvc.abound, hinvc.asorted⟩
      obtain ⟨gi, gf, _⟩ := dir_append_queue_inv _ data unitsize false hinv1
      refine ⟨gi, ?_, ?_⟩
      · rw [gf.2.1, gf.1]
        show st.dir_create_count + 1 = _
        rw [hdc, hcf]
        simp
      · intro hf
        rw [gf.1] at hf
        cases hf
  | df_analog ev =>
    simp only [receive]
    by_cases hc : st.dir_created = true
    · rw [if_neg (by simp [hc])]
      obtain ⟨gi, gf, _⟩ := dir_append_analog_queue_inv st (some ev) false hi
      refine ⟨gi, by rw [gf.2.1, gf.1]; exact hdc, ?_⟩
      intro hf
      rw [gf.1, hc] at hf
      cases hf
    · have hcf : st.dir_created = false := by
        revert hc
        cases st.dir_created <;> simp
      rw [if_pos (by simp [hcf])]
      have hinvc := dir_create_inv chs drv st (hpre hcf)
      have hinv1 : Inv { dir_create chs drv st with dir_created := true } :=
        ⟨hinvc.alen, hinvc.abuf, hinvc.cpos, hinvc.lbound, hinvc.lsorted,
          hinvc.abound, hinvc.asorted⟩
      obtain ⟨gi, gf, _⟩ := dir_append_analog_queue_inv _ (some ev) false hinv1
      refine ⟨gi, ?_, ?_⟩
      · rw [gf.2.1, gf.1]
        show st.dir_create_count + 1 = _
        rw [hdc, hcf]
        simp
      · intro hf
        rw [gf.1] at hf
        cases hf
  | df_end =>
    simp only [receive]
    by_cases hc : st.dir_created = true
    · rw [if_pos hc]
      split
      case _ st1 e heq =>
        obtain ⟨gi, gf, _⟩ := dir_append_queue_inv st [] 0 true hi
        rw [heq] at gi gf
        refine ⟨gi, by rw [gf.2.1, gf.1]; exact hdc, ?_⟩
        intro hf
        rw [gf.1, hc] at hf
        cases hf
      case _ st1 heq =>
        obtain ⟨gi, gf, _⟩ := dir_append_queue_inv st [] 0 true hi
        rw [heq] at gi gf
        obtain ⟨fi, ff, _⟩ := dir_append_analog_queue_inv st1 none true gi
        refine ⟨fi, by rw [ff.2.1, gf.2.1, ff.1, gf.1]; exact hdc, ?_⟩
        intro hf
        rw [ff.1, gf.1, hc] at hf
        cases hf
    · rw [if_neg hc]
      exact ⟨hi, hdc, hpre⟩

theorem run_inv (chs : List SrChannel) (drv : Option Nat) : ∀ (ps : List Packet)
    (st : OutContext), FullInv st → FullInv (run chs drv st ps).1 := by
  intro ps
  induction ps with
  | nil =>
    intro st h
    exact h
  | cons p ps ih =>
    intro st h
    simp only [run]
    split
    case _ st1 e heq =>
      have hres := receive_inv chs drv st p h
      rw [heq] at hres
      exact hres
    case _ st1 heq =>
      have hres := receive_inv chs drv st p h
      rw [heq] at hres
      exact ih st1 hres

theorem init_state_fullinv (io : List Bool) : FullInv (init_state io) := by
  refine ⟨⟨rfl, ?_, ?_, ?_, ?_, ?_, ?_⟩, rfl, fun _ => rfl⟩
  · intro b hb
    cases hb
  · intro c hc
    cases hc
  · intro n hn
    simp [logicNums, init_state] at hn
  · simp [logicNums, init_state]
  · intro idx hidx n hn
    simp [analogNums, init_state] at hn
  · intro nr
    simp [analogNums, init_state]

/-- C6: in every reachable session state — any channel list, any driver
samplerate, any I/O oracle, any packet sequence fed from a fresh context —
every chunk file ever written has a positive byte length: no zero-length
logic-1-* or analog-1-<ch>-* file is created. -/
theorem C6_no_empty_chunks (chs : List SrChannel) (drv : Option Nat) (io : List Bool)
    (ps : List Packet) :
    ∀ c ∈ (run chs drv (init_state io) ps).1.chunks, 0 < chunkByteLen c :=
  ((run_inv chs drv ps (init_state io) (init_state_fullinv io)).1).cpos

theorem C6_no_empty_chunks_witness :
    Chunk.logic 1 [7] ∈
      (run chsW none (init_state []) [Packet.df_logic [7] 1, Packet.df_end]).1.chunks ∧
    0 < chunkByteLen (Chunk.logic 1 [7]) :=
  ⟨by decide, C6_no_empty_chunks chsW none [] [Packet.df_logic [7] 1, Packet.df_end]
    (Chunk.logic 1 [7]) (by decide)⟩

/-- A successful logic chunk write: the chunk is recorded, the counter
advances, one oracle entry is consumed. -/
theorem dir_append_ok (st : OutContext) (buf : List Nat)
    (hio : st.io.headD true = true) (hne : buf.length ≠ 0) :
    dir_append st buf = ({ st with
      io := st.io.tail
      chunks := st.chunks ++ [Chunk.logic st.logic_buff.next_chunk_num buf]
      logic_buff := { st.logic_buff with
        next_chunk_num := st.logic_buff.next_chunk_num + 1 } }, none) := by
  rw [List.headD_eq_head?] at hio
  simp [dir_append, hne, hio]

/-- A failed logic chunk write: SR_ERR is returned, only the oracle entry is
consumed, the chunk counter does not move. -/
theorem dir_append_err (st : OutContext) (buf : List Nat)
    (hio : st.io.headD true = false) (hne : buf.length ≠ 0) :
    dir_append st buf = ({ st with io := st.io.tail }, some SrErr.err) := by
  rw [List.headD_eq_head?] at hio
  simp [dir_append, hne, hio]

/-- Session state with one enabled analog channel whose buffer holds one
sample, under an I/O oracle that fails the next write (C4 counterexample
input). -/
def failing_io_state : OutContext :=
  { dir_created := true, samplerate := 0, first_analog_index := 1, analog_ch_count := 1,
    analog_index_map := [0],
    logic_buff := { unit_size := 0, alloc_size := 1, samples := [], fill_size := 0,
                    next_chunk_num := 1 },
    analog_buff := [{ alloc_size := 4, samples := [5], fill_size := 1, next_chunk_num := 1 }],
    chunks := [], dir_create_count := 1, io := [false] }

/-- C4 counterexample: a FAILED analog chunk write still advances that
buffer's next_chunk_num from 1 to 2 — the increment at srdir.c:416 happens
before the success test, unconditionally.  So the counter is NOT left
unchanged when the chunk write fails. -/
theorem C4_counterexample :
    (dir_append_analog failing_io_state [5] 1).2 = some SrErr.err ∧
    (failing_io_state.analog_buff.getD 0 AnalogBuff.empty).next_chunk_num = 1 ∧
    ((dir_append_analog failing_io_state [5] 1).1.analog_buff.getD 0
      AnalogBuff.empty).next_chunk_num = 2 := by
  decide

/-- C4 amended: every buffer's next_chunk_num starts at 1 after directory
initialization; a successful LOGIC chunk write increments the logic counter by
exactly 1 and a failed one leaves it unchanged; an ANALOG chunk write
increments that slot's counter by exactly 1 regardless of success or failure
(the increment is unconditional, so a failed analog write also advances it);
and chunk numbers are never reused — in every reachable state the logic chunk
numbers and, per channel, the analog chunk numbers are strictly increasing. -/
theorem C4_chunk_numbering (chs : List SrChannel) (drv : Option Nat) (st : OutContext)
    (buf values : List Nat) (idx : Nat) (io : List Bool) (ps : List Packet)
    (hne : buf.length ≠ 0) (hvne : values.length ≠ 0) :
    ((dir_create chs drv st).logic_buff.next_chunk_num = 1 ∧
      ∀ b ∈ (dir_create chs drv st).analog_buff, b.next_chunk_num = 1) ∧
    (st.io.headD true = true →
      (dir_append st buf).2 = none ∧
      (dir_append st buf).1.logic_buff.next_chunk_num =
        st.logic_buff.next_chunk_num + 1) ∧
    (st.io.headD true = false →
      (dir_append st buf).2 = some SrErr.err ∧
      (dir_append st buf).1.logic_buff.next_chunk_num =
        st.logic_buff.next_chunk_num) ∧
    (idx < st.analog_buff.length →
      ((dir_append_analog st values (st.first_analog_index + idx)).1.analog_buff.getD idx
          AnalogBuff.empty).next_chunk_num =
        (st.analog_buff.getD idx AnalogBuff.empty).next_chunk_num + 1) ∧
    (List.Pairwise (· < ·) (logicNums (run chs drv (init_state io) ps).1.chunks) ∧
      ∀ nr, List.Pairwise (· < ·) (analogNums nr (run chs drv (init_state io) ps).1.chunks)) := by
  refine ⟨⟨?_, ?_⟩, ?_, ?_, ?_, ?_⟩
  · simp [dir_create]
  · intro b hb
    simp only [dir_create] at hb
    rw [List.eq_of_mem_replicate hb]
  · intro hio
    rw [dir_append_ok st buf hio hne]
    exact ⟨rfl, rfl⟩
  · intro hio
    rw [dir_append_err st buf hio hne]
    exact ⟨rfl, rfl⟩
  · intro hidx
    by_cases hio : st.io.headD true = true
    · rw [dir_append_analog_ok st values idx hio hvne]
      dsimp only
      rw [getD_set_self hidx]
    · have hio' : st.io.headD true = false := by
        revert hio
        cases st.io.headD true <;> simp
      rw [dir_append_analog_fail st values idx hio']
      dsimp only
      rw [getD_set_self hidx]
  · have hrun := (run_inv chs drv ps (init_state io) (init_state_fullinv io)).1
    exact ⟨hrun.lsorted, hrun.asorted⟩

theorem C4_chunk_numbering_witness :
    ([7] : List Nat).length ≠ 0 ∧ ([5] : List Nat).length ≠ 0 ∧
    (0 < failing_io_state.analog_buff.length ∧
      ((dir_append_analog failing_io_state [5]
          (failing_io_state.first_analog_index + 0)).1.analog_buff.getD 0
          AnalogBuff.empty).next_chunk_num =
        (failing_io_state.analog_buff.getD 0 AnalogBuff.empty).next_chunk_num + 1) :=
  ⟨by decide, by decide, by decide,
    (C4_chunk_numbering chsW none failing_io_state [7] [5] 0 [] []
      (by decide) (by decide)).2.2.2.1 (by decide)⟩

/-- A run over metadata and end-of-stream packets only, starting from a state
whose directory is not yet created: it succeeds and changes nothing but the
recorded samplerate. -/
theorem run_no_data (chs : List SrChannel) (drv : Option Nat) : ∀ (ps : List Packet)
    (st : OutContext), st.dir_created = false →
    (∀ p ∈ ps, (∃ cfg, p = Packet.df_meta cfg) ∨ p = Packet.df_end) →
    (run chs drv st ps).2 = none ∧
    (run chs drv st ps).1 = { st with samplerate := (run chs drv st ps).1.samplerate } := by
  intro ps
  induction ps with
  | nil =>
    intro st hc hps
    exact ⟨rfl, rfl⟩
  | cons p ps ih =>
    intro st hc hps
    rcases hps p (List.mem_cons_self p ps) with ⟨cfg, hp⟩ | hp
    · subst hp
      simp only [run, receive]
      exact ih _ hc (fun q hq => hps q (List.mem_cons_of_mem _ hq))
    · subst hp
      simp only [run, receive]
      rw [if_neg (by rw [hc]; exact Bool.false_ne_true)]
      exact ih st hc (fun q hq => hps q (List.mem_cons_of_mem _ hq))

/-- C9: a session fed only stream-metadata packets and end-of-stream packets
never creates the directory (dir_create never runs, no chunk file exists, the
buffers stay in their initial state) and returns success; and in every session
whatsoever, directory initialization runs at most once. -/
theorem C9_lazy_initialization (chs : List SrChannel) (drv : Option Nat) (io : List Bool)
    (ps ps2 : List Packet)
    (hps : ∀ p ∈ ps, (∃ cfg, p = Packet.df_meta cfg) ∨ p = Packet.df_end) :
    ((run chs drv (init_state io) ps).2 = none ∧
      (run chs drv (init_state io) ps).1.dir_created = false ∧
      (run chs drv (init_state io) ps).1.dir_create_count = 0 ∧
      (run chs drv (init_state io) ps).1.chunks = [] ∧
      (run chs drv (init_state io) ps).1.logic_buff = (init_state io).logic_buff ∧
      (run chs drv (init_state io) ps).1.analog_buff = [] ∧
      (run chs drv (init_state io) ps).1.io = io) ∧
    (run chs drv (init_state io) ps2).1.dir_create_count ≤ 1 := by
  constructor
  · obtain ⟨h1, h2⟩ := run_no_data chs drv ps (init_state io) rfl hps
    refine ⟨h1, ?_, ?_, ?_, ?_, ?_, ?_⟩ <;> (rw [h2]; try rfl)
  · have hcount := (run_inv chs drv ps2 (init_state io) (init_state_fullinv io)).2.1
    rw [hcount]
    split <;> omega

theorem C9_lazy_initialization_witness :
    (run chsW none (init_state []) [Packet.df_meta [some 100], Packet.df_end]).2 = none ∧
    (run chsW none (init_state []) [Packet.df_meta [some 100], Packet.df_end]).1.chunks = [] ∧
    (run chsW none (init_state []) [Packet.df_logic [7] 1]).1.dir_create_count ≤ 1 := by
  have h := C9_lazy_initialization chsW none [] [Packet.df_meta [some 100], Packet.df_end]
    [Packet.df_logic [7] 1] (by
      intro p hp
      simp only [List.mem_cons, List.not_mem_nil, or_false] at hp
      rcases hp with rfl | rfl
      · exact Or.inl ⟨[some 100], rfl⟩
      · exact Or.inr rfl)
  exact ⟨h.1.1, h.1.2.2.2.1, h.2⟩

end Srdir
